import Mathlib

/-!
# Run-length codec of `script.js`

A shallow embedding of `compressRLE` and `decompressRLE` from `src/script.js`, and the
properties of the codec stated by the specification.

A JavaScript string is a finite sequence of UTF-16 code units; the regular expression of
`compressRLE` has no `u` flag and `decompressRLE` indexes its argument, so both functions
work code unit by code unit.  A string is modelled as a list of code units, a code unit as
its numeric value, a natural number (below `2 ^ 16`; nothing below depends on that
bound).

Three facts of the host are part of the model.

* `parseInt` returns a Number.  It is modelled by the integer it denotes, which is the
  Number itself up to `2 ^ 53`.
* `String.prototype.repeat` and string concatenation raise a `RangeError` when the result
  would be longer than the longest string the engine allows.  That length is the parameter
  `maxLen` of the decoder; it is below `2 ^ 53` on every engine, so a count that `parseInt`
  would round is always in the `RangeError` branch.  The theorems hold for every `maxLen`;
  they describe the code for `maxLen < 2 ^ 53`.
* The regular expression `/([\s\S])\1*/g` keeps one entry on the backtrack stack of the
  engine for every repetition of `\1`, and the engine raises a `RangeError` when that stack
  is exhausted.  The longest run the engine matches is the parameter `maxRun` of the
  encoder `compressRLEOn`; `compressRLE` is the stream returned when no match raises
  (`compressRLEOn_eq`).

The strings the encoder builds are at most three times as long as its argument; their
allocation is taken to succeed, and run lengths are below `10 ^ 21`, where the conversion
of a Number to a string is its plain decimal numeral.
-/

namespace RLE

/-- The escape marker, the backslash. -/
def backslash : Nat := 92

/-- The code units of a string literal (UTF-16), for writing examples. -/
def codeUnits (s : String) : List Nat :=
  s.toList.flatMap fun c =>
    if c.toNat < 0x10000 then [c.toNat]
    else [0xD800 + (c.toNat - 0x10000) / 0x400, 0xDC00 + (c.toNat - 0x10000) % 0x400]

/-! ## Built-ins used by the source -/

/-- The white space and line terminator code units that `parseInt` skips. -/
def isWhiteSpace (c : Nat) : Bool :=
  c == 0x09 || c == 0x0A || c == 0x0B || c == 0x0C || c == 0x0D || c == 0x20 ||
  c == 0xA0 || c == 0x1680 || (0x2000 ≤ c && c ≤ 0x200A) || c == 0x2028 ||
  c == 0x2029 || c == 0x202F || c == 0x205F || c == 0x3000 || c == 0xFEFF

/-- The value of a code unit as a digit of the given radix, if it is one. -/
def radixDigit (radix : Nat) (c : Nat) : Option Nat :=
  if 48 ≤ c ∧ c ≤ 57 then (if c - 48 < radix then some (c - 48) else none)
  else if 97 ≤ c ∧ c ≤ 122 then (if c - 87 < radix then some (c - 87) else none)
  else if 65 ≤ c ∧ c ≤ 90 then (if c - 55 < radix then some (c - 55) else none)
  else none

/-- The digits read by `parseInt`: the longest prefix of radix digits, as values. -/
def radixPrefix (radix : Nat) : List Nat → List Nat
  | [] => []
  | c :: rest =>
    match radixDigit radix c with
    | some v => v :: radixPrefix radix rest
    | none => []

/-- The built-in `parseInt(string, radix)`; `none` is `NaN`, radix `0` is a missing radix. -/
def parseInt (string : List Nat) (radix : Nat) : Option Int :=
  let s := string.dropWhile isWhiteSpace
  let sign : Int := if s.head? = some 45 then -1 else 1
  let s := if s.head? = some 45 ∨ s.head? = some 43 then s.tail else s
  if radix ≠ 0 ∧ (radix < 2 ∨ 36 < radix) then none
  else
    let hex : Bool := (radix = 0 ∨ radix = 16) ∧
      (s.take 2 = [48, 120] ∨ s.take 2 = [48, 88])
    let r := if hex then 16 else if radix = 0 then 10 else radix
    let s := if hex then s.drop 2 else s
    let z := radixPrefix r s
    if z = [] then none
    else some (sign * ((z.foldl (fun acc d => acc * r + d) 0 : Nat) : Int))

/-- The built-in `isNaN` on the result of `parseInt`. -/
def isNaN (x : Option Int) : Bool := x.isNone

/-- Decimal digits of a positive number, most significant first, in front of `acc`. -/
def decimalDigits : Nat → Nat → List Nat → List Nat
  | 0, _, acc => acc
  | fuel + 1, n, acc =>
    if n / 10 = 0 then (48 + n % 10) :: acc
    else decimalDigits fuel (n / 10) ((48 + n % 10) :: acc)

/-- The string of a non-negative integer Number, as a template literal renders it. -/
def numberToString (n : Nat) : List Nat := decimalDigits (n + 1) n []

/-- What the decoder can raise: the three `Error`s thrown by the source, and the
`RangeError` of the engine when a string would exceed its longest length. -/
inductive DecodeError where
  | missingCount (position : Nat)
  | countNotFollowed
  | escapeAtEnd
  | rangeError
  deriving DecidableEq, Repr

/-- The built-in `char.repeat(count)` for a one-unit string `char`. -/
def strRepeat (maxLen : Nat) (char : Nat) (count : Option Int) :
    Except DecodeError (List Nat) :=
  match count with
  | none => .ok []
  | some n =>
    if n < 0 ∨ (maxLen : Int) < n then .error .rangeError
    else .ok (List.replicate n.toNat char)

/-- String concatenation `a + b`. -/
def strConcat (maxLen : Nat) (a b : List Nat) : Except DecodeError (List Nat) :=
  if maxLen < a.length + b.length then .error .rangeError else .ok (a ++ b)

/-! ## `compressRLE` -/

/-- The callback of `text.replace`: the token of one match. -/
def encodeRun (matched : List Nat) : List Nat :=
  let count := matched.length
  match matched with
  | [] => numberToString count ++ codeUnits "undefined"
  | char :: _ =>
    if !isNaN (parseInt [char] 0) || char == backslash then
      numberToString count ++ [backslash] ++ [char]
    else
      numberToString count ++ [char]

/-- The result of the global replacement `text.replace(/([\s\S])\1*/g, callback)` when no
match raises: at each position the expression matches one code unit and then, greedily,
every following copy of it. -/
def replaceRuns (callback : List Nat → List Nat) : List Nat → List Nat
  | [] => []
  | c :: rest =>
    callback (c :: rest.takeWhile (· == c)) ++ replaceRuns callback (rest.dropWhile (· == c))
termination_by text => text.length
decreasing_by
  simp_wf
  exact Nat.lt_succ_of_le ((List.dropWhile_sublist _).length_le)

/-- The stream the function `compressRLE` of `script.js` returns when no match of its
regular expression raises. -/
def compressRLE (text : List Nat) : List Nat :=
  if text = [] then [] else replaceRuns encodeRun text

/-- What the encoder can raise: the `RangeError` of the engine when a match of the regular
expression exhausts the backtrack stack. -/
inductive EncodeError where
  | rangeError
  deriving DecidableEq, Repr

/-- The global replacement `text.replace(/([\s\S])\1*/g, callback)` on an engine whose
regular expression matches a run of at most `maxRun` units: at each position the expression
matches one code unit and then, greedily, every following copy of it, and the match raises
when the run is longer than `maxRun`. -/
def replaceRunsOn (maxRun : Nat) (callback : List Nat → List Nat) :
    List Nat → Except EncodeError (List Nat)
  | [] => .ok []
  | c :: rest =>
    if maxRun < (c :: rest.takeWhile (· == c)).length then .error .rangeError
    else
      match replaceRunsOn maxRun callback (rest.dropWhile (· == c)) with
      | .error e => .error e
      | .ok replaced => .ok (callback (c :: rest.takeWhile (· == c)) ++ replaced)
termination_by text => text.length
decreasing_by
  simp_wf
  exact Nat.lt_succ_of_le ((List.dropWhile_sublist _).length_le)

/-- The function `compressRLE` of `script.js`, on an engine whose regular expression matches
a run of at most `maxRun` units. -/
def compressRLEOn (maxRun : Nat) (text : List Nat) : Except EncodeError (List Nat) :=
  if text = [] then .ok [] else replaceRunsOn maxRun encodeRun text

/-! ## `decompressRLE` -/

/-- The inner loop: while the unit at `i` is a digit, append it to `countStr` and advance.
The state is `countStr`, the position `i` and the units from `i` on. -/
def digitLoop (countStr : List Nat) (i : Nat) :
    List Nat → List Nat × Nat × List Nat
  | [] => (countStr, i, [])
  | c :: rest =>
    if !isNaN (parseInt [c] 0) then digitLoop (countStr ++ [c]) (i + 1) rest
    else (countStr, i, c :: rest)

/-- The state of the outer loop: the position `i`, the units from `i` on, and the text
decoded so far. -/
structure DecodeState where
  i : Nat
  rest : List Nat
  decompressedText : List Nat
  deriving DecidableEq, Repr

/-- One pass of the outer loop, entered with `i < compressedText.length`. -/
def decodePass (maxLen : Nat) (st : DecodeState) : Except DecodeError DecodeState :=
  match digitLoop [] st.i st.rest with
  | (countStr, i, rest) =>
    if countStr = [] then .error (.missingCount i)
    else
      match rest with
      | [] => .error .countNotFollowed
      | char :: rest1 =>
        if char = backslash then
          match rest1 with
          | [] => .error .escapeAtEnd
          | char2 :: rest2 =>
            match strRepeat maxLen char2 (parseInt countStr 10) with
            | .error e => .error e
            | .ok piece =>
              match strConcat maxLen st.decompressedText piece with
              | .error e => .error e
              | .ok text => .ok ⟨i + 2, rest2, text⟩
        else
          match strRepeat maxLen char (parseInt countStr 10) with
          | .error e => .error e
          | .ok piece =>
            match strConcat maxLen st.decompressedText piece with
            | .error e => .error e
            | .ok text => .ok ⟨i + 1, rest1, text⟩

/-- The outer loop `while (i < compressedText.length)`. -/
def decodeLoop (maxLen : Nat) (st : DecodeState) : Except DecodeError DecodeState :=
  if st.rest = [] then .ok st
  else
    match hp : decodePass maxLen st with
    | .error e => .error e
    | .ok st1 => decodeLoop maxLen st1
termination_by st.rest.length
decreasing_by
  simp_wf
  have key : ∀ (l cs : List Nat) (i : Nat),
      (digitLoop cs i l).2.2.length ≤ l.length := by
    intro l
    induction l with
    | nil => intro _ _; simp [digitLoop]
    | cons c rest ih =>
      intro cs i
      unfold digitLoop
      split
      · exact Nat.le_succ_of_le (ih _ _)
      · simp
  have hk := key st.rest [] st.i
  unfold decodePass at hp
  generalize digitLoop [] st.i st.rest = r at hp hk
  obtain ⟨countStr, i, rest⟩ := r
  simp only at hp hk
  split at hp
  · cases hp
  · split at hp
    · cases hp
    · split at hp
      · split at hp
        · cases hp
        · split at hp
          · cases hp
          · split at hp
            · cases hp
            · cases hp
              simp only [List.length_cons] at hk ⊢
              omega
      · split at hp
        · cases hp
        · split at hp
          · cases hp
          · cases hp
            simp only [List.length_cons] at hk ⊢
            omega

/-- The function `decompressRLE` of `script.js`, on an engine whose longest string has
`maxLen` code units. -/
def decompressRLE (maxLen : Nat) (compressedText : List Nat) :
    Except DecodeError (List Nat) :=
  if compressedText = [] then .ok []
  else
    match decodeLoop maxLen ⟨0, compressedText, []⟩ with
    | .error e => .error e
    | .ok st => .ok st.decompressedText

/-! ## Specification-side notions -/

/-- A decimal digit, one of the code units of `0` to `9`. -/
def isDecDigit (c : Nat) : Bool := 48 ≤ c && c ≤ 57

/-- The base-10 value of a string of decimal digits. -/
def decimalValue (d : List Nat) : Nat := Nat.ofDigits 10 (d.reverse.map (· - 48))

/-- The decimal numeral of a number, without leading zeros. -/
def decimalNumeral (n : Nat) : List Nat :=
  if n = 0 then [48] else (Nat.digits 10 n).reverse.map (48 + ·)

/-- A token of the stream grammar: the count digits, whether an escape marker stands before
the literal, and the literal. -/
structure Token where
  digits : List Nat
  escaped : Bool
  literal : Nat
  deriving DecidableEq, Repr

/-- A token is one or more decimal digits followed by either one unit that is neither a
digit nor the backslash, or a backslash and any one unit. -/
def Token.WellFormed (t : Token) : Prop :=
  t.digits ≠ [] ∧ (∀ x ∈ t.digits, isDecDigit x = true) ∧
    (t.escaped = false → isDecDigit t.literal = false ∧ t.literal ≠ backslash)

instance (t : Token) : Decidable t.WellFormed := by
  unfold Token.WellFormed; infer_instance

/-- The units of a token as it stands in a stream. -/
def Token.serialize (t : Token) : List Nat :=
  t.digits ++ (if t.escaped then [backslash, t.literal] else [t.literal])

/-- The text a token stands for: its literal, repeated as often as its count says. -/
def Token.expand (t : Token) : List Nat :=
  List.replicate (decimalValue t.digits) t.literal

/-- The stream of a list of tokens: their concatenation, in order. -/
def serialize (ts : List Token) : List Nat := ts.flatMap Token.serialize

/-- The text of a list of tokens: the concatenation of their expansions, in order. -/
def expand (ts : List Token) : List Nat := ts.flatMap Token.expand

/-- The maximal runs of a text, scanning left to right with the run in progress (`cur`
seen `n` times): a unit equal to the previous one extends the run, a different one closes
it and starts a new run. -/
def specRunsFrom (cur : Nat) (n : Nat) : List Nat → List (Nat × Nat)
  | [] => [(cur, n)]
  | c :: rest =>
    if c = cur then specRunsFrom cur (n + 1) rest
    else (cur, n) :: specRunsFrom c 1 rest

/-- The maximal runs of a text, each as its unit and its length. -/
def specRuns : List Nat → List (Nat × Nat)
  | [] => []
  | c :: rest => specRunsFrom c 1 rest

/-- The token of a run: its length in decimal, an escape marker if and only if its unit is
a digit or the marker, and the unit once. -/
def specToken (run : Nat × Nat) : List Nat :=
  decimalNumeral run.2 ++
    (if isDecDigit run.1 = true ∨ run.1 = backslash then [backslash] else []) ++ [run.1]

/-- The reference run-length encoder: the tokens of the maximal runs, in order. -/
def specEncode (text : List Nat) : List Nat := (specRuns text).flatMap specToken

/-- The token of a run, as a token of the stream grammar. -/
def runToken (run : Nat × Nat) : Token :=
  ⟨decimalNumeral run.2, decide (isDecDigit run.1 = true ∨ run.1 = backslash), run.1⟩

/-- The outer loop with a bound on how often its condition is tested: `none` when the loop
is still running after `fuel` tests. -/
def decodeLoopFuel (maxLen : Nat) : Nat → DecodeState → Option (Except DecodeError DecodeState)
  | 0, _ => none
  | fuel + 1, st =>
    if st.rest = [] then some (.ok st)
    else
      match decodePass maxLen st with
      | .error e => some (.error e)
      | .ok st1 => decodeLoopFuel maxLen fuel st1

/-- A canonical token: its count is a decimal numeral whose first digit is not `0` and
whose value is at least 1, and the backslash is present exactly when the literal is a digit
or the backslash. -/
def Token.Canonical (t : Token) : Prop :=
  t.digits ≠ [] ∧ (∀ x ∈ t.digits, isDecDigit x = true) ∧ t.digits.head? ≠ some 48 ∧
    1 ≤ decimalValue t.digits ∧
    (t.escaped = true ↔ (isDecDigit t.literal = true ∨ t.literal = backslash))

instance (t : Token) : Decidable t.Canonical := by
  unfold Token.Canonical; infer_instance

/-- A canonical stream of tokens: every token is canonical and no two consecutive tokens
have the same literal. -/
def CanonicalStream (ts : List Token) : Prop :=
  (∀ t ∈ ts, t.Canonical) ∧ ts.Chain' (fun a b => a.literal ≠ b.literal)

/-! ## The built-ins on the arguments the source gives them -/

theorem isNaN_parseInt_single (c : Nat) : isNaN (parseInt [c] 0) = !isDecDigit c := by
  unfold parseInt isNaN isDecDigit
  by_cases hw : isWhiteSpace c = true
  · have : ¬ (48 ≤ c ∧ c ≤ 57) := by
      simp only [isWhiteSpace, Bool.or_eq_true, beq_iff_eq, Bool.and_eq_true,
        decide_eq_true_eq] at hw
      omega
    simp [hw, radixPrefix, this]
    omega
  · simp only [List.dropWhile_cons, hw]
    by_cases h45 : c = 45
    · subst h45; simp [radixPrefix]
    · by_cases h43 : c = 43
      · subst h43; simp [radixPrefix]
      · simp only [List.head?_cons, Option.some.injEq, h45, h43, or_self, if_false,
          List.take_succ_cons, List.take_zero, false_and, and_false, or_false, ne_eq,
          not_true_eq_false, decide_False, Bool.false_eq_true, List.take_nil,
          reduceCtorEq, radixPrefix, radixDigit, List.cons.injEq, and_true]
        by_cases hd : 48 ≤ c ∧ c ≤ 57
        · have : c - 48 < 10 := by omega
          simp [hd, this]
        · by_cases ha : 97 ≤ c ∧ c ≤ 122
          · have : ¬ (c - 87 < 10) := by omega
            simp [hd, ha, this]
            omega
          · by_cases hb : 65 ≤ c ∧ c ≤ 90
            · have : ¬ (c - 55 < 10) := by omega
              simp [hd, ha, hb, this]
              omega
            · simp [hd, ha, hb]
              omega

theorem radixPrefix_digits (d : List Nat) (hd : ∀ x ∈ d, isDecDigit x = true) :
    radixPrefix 10 d = d.map (· - 48) := by
  induction d with
  | nil => rfl
  | cons x rest ih =>
    have hx : 48 ≤ x ∧ x ≤ 57 := by
      have := hd x (List.mem_cons_self _ _)
      simpa [isDecDigit] using this
    have hlt : x - 48 < 10 := by omega
    have ih1 := ih (fun y hy => hd y (List.mem_cons_of_mem _ hy))
    simp [radixPrefix, radixDigit, hx, hlt, ih1]

theorem foldl_decimal (l : List Nat) :
    l.foldl (fun acc d => acc * 10 + d) 0 = Nat.ofDigits 10 l.reverse := by
  induction l using List.reverseRecOn with
  | nil => rfl
  | append_singleton l d ih =>
    rw [List.foldl_append, List.reverse_append]
    simp only [List.foldl_cons, List.foldl_nil, List.reverse_cons, List.reverse_nil,
      List.nil_append, List.singleton_append, Nat.ofDigits_cons, ih]
    ring

theorem parseInt_digits (d : List Nat) (hne : d ≠ []) (hd : ∀ x ∈ d, isDecDigit x = true) :
    parseInt d 10 = some (decimalValue d : Int) := by
  obtain ⟨x, rest, rfl⟩ := List.exists_cons_of_ne_nil hne
  have hx : 48 ≤ x ∧ x ≤ 57 := by
    have := hd x (List.mem_cons_self _ _)
    simpa [isDecDigit] using this
  have hw : isWhiteSpace x = false := by
    simp only [isWhiteSpace, Bool.or_eq_false_iff, beq_eq_false_iff_ne, Bool.and_eq_false_imp,
      decide_eq_true_eq, decide_eq_false_iff_not, ne_eq]
    omega
  have h45 : x ≠ 45 := by omega
  have h43 : x ≠ 43 := by omega
  have hz : radixPrefix 10 (x :: rest) = (x :: rest).map (· - 48) := radixPrefix_digits _ hd
  unfold parseInt
  simp only [List.dropWhile_cons, hw, Bool.false_eq_true, if_false, List.head?_cons,
    Option.some.injEq, h45, h43, or_self]
  simp only [OfNat.ofNat_ne_zero, ne_eq, not_false_eq_true, true_and, Nat.reduceLT,
    or_self, if_false, Nat.reduceEqDiff, false_and, decide_False, Bool.false_eq_true,
    hz, List.map_cons, reduceCtorEq, one_mul, decimalValue]
  rw [← List.map_cons (· - 48) x rest, foldl_decimal, List.map_reverse]

theorem decimalDigits_eq (fuel : Nat) :
    ∀ (n : Nat) (acc : List Nat), n < fuel → 0 < n →
      decimalDigits fuel n acc = (Nat.digits 10 n).reverse.map (48 + ·) ++ acc := by
  induction fuel with
  | zero => intro n acc h; omega
  | succ fuel ih =>
    intro n acc hlt hpos
    unfold decimalDigits
    by_cases h0 : n / 10 = 0
    · have hn : n < 10 := by omega
      have hmod : n % 10 = n := Nat.mod_eq_of_lt hn
      rw [if_pos h0, Nat.digits_of_lt 10 n (by omega) hn, hmod]
      rfl
    · rw [if_neg h0, ih (n / 10) _ (by omega) (by omega),
        Nat.digits_def' (by norm_num : 1 < 10) hpos]
      simp

theorem numberToString_eq (n : Nat) : numberToString n = decimalNumeral n := by
  unfold numberToString decimalNumeral
  by_cases h : n = 0
  · subst h; rfl
  · rw [if_neg h, decimalDigits_eq (n + 1) n [] (by omega) (by omega), List.append_nil]

theorem decimalNumeral_ne_nil (n : Nat) : decimalNumeral n ≠ [] := by
  unfold decimalNumeral
  by_cases h : n = 0
  · simp [h]
  · simp [h, Nat.digits_eq_nil_iff_eq_zero]

theorem decimalNumeral_digits (n : Nat) : ∀ x ∈ decimalNumeral n, isDecDigit x = true := by
  unfold decimalNumeral
  by_cases h : n = 0
  · simp [h, isDecDigit]
  · intro x hx
    simp only [h, if_false, List.mem_map, List.mem_reverse] at hx
    obtain ⟨y, hy, rfl⟩ := hx
    have := Nat.digits_lt_base (by norm_num : 1 < 10) hy
    simp only [isDecDigit, Bool.and_eq_true, decide_eq_true_eq]
    omega

theorem decimalValue_numeral (n : Nat) : decimalValue (decimalNumeral n) = n := by
  unfold decimalNumeral decimalValue
  by_cases h : n = 0
  · subst h; simp
  · simp only [h, if_false, ← List.map_reverse, List.reverse_reverse, List.map_map]
    have : ((fun x => x - 48) ∘ fun x => 48 + x) = id := by
      funext x; simp
    rw [this, List.map_id, Nat.ofDigits_digits]

/-! ## The decoder on a stream of tokens -/

theorem digitLoop_eq (l : List Nat) : ∀ (countStr : List Nat) (i : Nat),
    digitLoop countStr i l =
      (countStr ++ l.takeWhile isDecDigit, i + (l.takeWhile isDecDigit).length,
        l.dropWhile isDecDigit) := by
  induction l with
  | nil => intro countStr i; simp [digitLoop]
  | cons c rest ih =>
    intro countStr i
    unfold digitLoop
    rw [isNaN_parseInt_single]
    by_cases hc : isDecDigit c = true
    · simp [hc, ih, Nat.add_assoc, Nat.add_comm 1]
    · simp [hc]

theorem takeWhile_digits_append (d tail : List Nat) (hd : ∀ x ∈ d, isDecDigit x = true)
    (ht : ∀ x ∈ tail.head?, isDecDigit x = false) :
    (d ++ tail).takeWhile isDecDigit = d ∧ (d ++ tail).dropWhile isDecDigit = tail := by
  induction d with
  | nil =>
    cases tail with
    | nil => simp
    | cons x rest =>
      have : isDecDigit x = false := ht x (by simp)
      simp [this]
  | cons x rest ih =>
    have hx := hd x (List.mem_cons_self _ _)
    have ih1 := ih (fun y hy => hd y (List.mem_cons_of_mem _ hy))
    simp [hx, ih1]

theorem decodeLoop_unfold (maxLen : Nat) (st : DecodeState) :
    decodeLoop maxLen st =
      if st.rest = [] then .ok st
      else
        match decodePass maxLen st with
        | .error e => .error e
        | .ok st1 => decodeLoop maxLen st1 := by
  rw [decodeLoop]
  split
  · rfl
  · split <;> simp_all

theorem strRepeat_value (maxLen c v : Nat) :
    strRepeat maxLen c (some (v : Int)) =
      if maxLen < v then .error .rangeError else .ok (List.replicate v c) := by
  unfold strRepeat
  by_cases h : maxLen < v
  · have : ((maxLen : Int) < (v : Int)) := by exact_mod_cast h
    simp [h, this]
  · have h1 : ¬ ((maxLen : Int) < (v : Int)) := by exact_mod_cast h
    have h2 : ¬ ((v : Int) < 0) := by omega
    simp [h, h1, h2]

theorem Token.serialize_ne_nil (t : Token) : t.serialize ≠ [] := by
  unfold Token.serialize
  cases t.escaped <;> simp

theorem digitLoop_token (i : Nat) (t : Token) (ht : t.WellFormed) (rest : List Nat) :
    digitLoop [] i (t.serialize ++ rest) =
      (t.digits, i + t.digits.length,
        (if t.escaped then [backslash, t.literal] else [t.literal]) ++ rest) := by
  obtain ⟨_, hdig, hlit⟩ := ht
  have hsplit := takeWhile_digits_append t.digits
    ((if t.escaped then [backslash, t.literal] else [t.literal]) ++ rest) hdig
    (by
      cases hesc : t.escaped with
      | true => simp [backslash, isDecDigit]
      | false => simp [(hlit hesc).1])
  rw [digitLoop_eq, Token.serialize, List.append_assoc, hsplit.1, hsplit.2, List.nil_append]

theorem expandStep (maxLen v c : Nat) (out : List Nat) (k : List Nat → DecodeState) :
    (match strRepeat maxLen c (some (v : Int)) with
      | .error e => .error e
      | .ok piece =>
        match strConcat maxLen out piece with
        | .error e => .error e
        | .ok text => .ok (k text)) =
      if maxLen < out.length + v then (.error .rangeError : Except DecodeError DecodeState)
      else .ok (k (out ++ List.replicate v c)) := by
  rw [strRepeat_value]
  by_cases h1 : maxLen < v
  · have h2 : maxLen < out.length + v := by omega
    simp [h1, h2]
  · by_cases h2 : maxLen < out.length + v
    · simp [h1, h2, strConcat]
    · simp [h1, h2, strConcat]

theorem decodePass_token (maxLen i : Nat) (t : Token) (ht : t.WellFormed)
    (rest out : List Nat) :
    decodePass maxLen ⟨i, t.serialize ++ rest, out⟩ =
      if maxLen < out.length + t.expand.length then .error .rangeError
      else .ok ⟨i + t.serialize.length, rest, out ++ t.expand⟩ := by
  have hloop := digitLoop_token i t ht rest
  obtain ⟨hne, hdig, hlit⟩ := ht
  unfold decodePass
  dsimp only
  rw [hloop]
  simp only [hne, if_false, parseInt_digits _ hne hdig]
  cases hesc : t.escaped with
  | true =>
    simp only [if_true, List.cons_append, List.nil_append]
    rw [expandStep maxLen (decimalValue t.digits) t.literal out
      (fun text => ⟨i + t.digits.length + 2, rest, text⟩)]
    simp [Token.expand, Token.serialize, hesc, Nat.add_assoc]
  | false =>
    obtain ⟨_, hnb⟩ := hlit hesc
    simp only [Bool.false_eq_true, if_false, List.cons_append, List.nil_append, hnb]
    rw [expandStep maxLen (decimalValue t.digits) t.literal out
      (fun text => ⟨i + t.digits.length + 1, rest, text⟩)]
    simp [Token.expand, Token.serialize, hesc, Nat.add_assoc]

theorem decodeLoop_nil (maxLen i : Nat) (out : List Nat) :
    decodeLoop maxLen ⟨i, [], out⟩ = .ok ⟨i, [], out⟩ := by
  rw [decodeLoop_unfold]; simp

theorem expand_cons (t : Token) (ts : List Token) : expand (t :: ts) = t.expand ++ expand ts := by
  simp [expand]

theorem serialize_cons (t : Token) (ts : List Token) :
    serialize (t :: ts) = t.serialize ++ serialize ts := by
  simp [serialize]

theorem decodeLoop_tokens (maxLen : Nat) (ts : List Token) (hts : ∀ t ∈ ts, t.WellFormed)
    (rest : List Nat) : ∀ (i : Nat) (out : List Nat), out.length ≤ maxLen →
    decodeLoop maxLen ⟨i, serialize ts ++ rest, out⟩ =
      if maxLen < out.length + (expand ts).length then .error .rangeError
      else decodeLoop maxLen ⟨i + (serialize ts).length, rest, out ++ expand ts⟩ := by
  induction ts with
  | nil =>
    intro i out hout
    have : ¬ maxLen < out.length := by omega
    simp [serialize, expand, this]
  | cons t ts ih =>
    intro i out hout
    have ht := hts t (List.mem_cons_self _ _)
    have ih1 := ih (fun u hu => hts u (List.mem_cons_of_mem _ hu))
    rw [decodeLoop_unfold]
    have hne : serialize (t :: ts) ++ rest ≠ [] := by
      have := t.serialize_ne_nil
      simp [serialize_cons, this]
    simp only [hne, if_false]
    rw [serialize_cons, List.append_assoc, decodePass_token maxLen i t ht]
    by_cases h1 : maxLen < out.length + t.expand.length
    · have h2 : maxLen < out.length + (expand (t :: ts)).length := by
        rw [expand_cons, List.length_append]; omega
      simp [h1, h2]
    · simp only [h1, if_false]
      rw [ih1 _ _ (by rw [List.length_append]; omega)]
      simp only [expand_cons, List.length_append, List.append_assoc, Nat.add_assoc]

theorem decompressRLE_tokens (maxLen : Nat) (ts : List Token) (hts : ∀ t ∈ ts, t.WellFormed) :
    decompressRLE maxLen (serialize ts) =
      if maxLen < (expand ts).length then .error .rangeError else .ok (expand ts) := by
  unfold decompressRLE
  by_cases hnil : serialize ts = []
  · cases ts with
    | nil => simp [serialize, expand]
    | cons t ts =>
      have := t.serialize_ne_nil
      simp [serialize_cons, this] at hnil
  · have h := decodeLoop_tokens maxLen ts hts [] 0 [] (Nat.zero_le _)
    rw [List.append_nil] at h
    rw [if_neg hnil, h]
    by_cases hfit : maxLen < (expand ts).length
    · simp [hfit]
    · simp [hfit, decodeLoop_nil]

/-! ## What a successful pass has read -/

theorem dropWhile_head_not (l : List Nat) (c : Nat) (r : List Nat)
    (h : l.dropWhile isDecDigit = c :: r) : isDecDigit c = false := by
  have := List.head?_dropWhile_not isDecDigit l
  rw [h] at this
  simpa using this

theorem decodePass_ok_inv (maxLen : Nat) (st st1 : DecodeState)
    (h : decodePass maxLen st = .ok st1) :
    ∃ t : Token, t.WellFormed ∧ st.rest = t.serialize ++ st1.rest ∧
      st1.i = st.i + t.serialize.length ∧
      st1.decompressedText = st.decompressedText ++ t.expand ∧
      st1.decompressedText.length ≤ maxLen := by
  unfold decodePass at h
  rw [digitLoop_eq] at h
  have hsplit : st.rest.takeWhile isDecDigit ++ st.rest.dropWhile isDecDigit = st.rest :=
    List.takeWhile_append_dropWhile _ _
  have hdig : ∀ x ∈ st.rest.takeWhile isDecDigit, isDecDigit x = true :=
    fun x hx => List.mem_takeWhile_imp hx
  generalize st.rest.takeWhile isDecDigit = d at h hsplit hdig
  generalize hr : st.rest.dropWhile isDecDigit = r at h hsplit
  simp only [List.nil_append] at h
  by_cases hne : d = []
  · simp [hne] at h
  · simp only [hne, if_false, parseInt_digits d hne hdig] at h
    cases r with
    | nil => simp at h
    | cons c r1 =>
      have hc := dropWhile_head_not _ _ _ hr
      simp only at h
      by_cases hb : c = backslash
      · simp only [hb, if_true] at h
        cases r1 with
        | nil => simp at h
        | cons c2 r2 =>
          simp only at h
          rw [expandStep maxLen (decimalValue d) c2 st.decompressedText
            (fun text => ⟨st.i + d.length + 2, r2, text⟩)] at h
          by_cases hfit : maxLen < st.decompressedText.length + decimalValue d
          · simp [hfit] at h
          · simp only [hfit, if_false, Except.ok.injEq] at h
            subst h
            refine ⟨⟨d, true, c2⟩, ⟨hne, hdig, by simp⟩, ?_, ?_, ?_, ?_⟩
            · simp [Token.serialize, ← hsplit, hb]
            · simp [Token.serialize, Nat.add_assoc]
            · simp [Token.expand]
            · simp only [List.length_append, List.length_replicate]; omega
      · simp only [hb, if_false] at h
        rw [expandStep maxLen (decimalValue d) c st.decompressedText
          (fun text => ⟨st.i + d.length + 1, r1, text⟩)] at h
        by_cases hfit : maxLen < st.decompressedText.length + decimalValue d
        · simp [hfit] at h
        · simp only [hfit, if_false, Except.ok.injEq] at h
          subst h
          refine ⟨⟨d, false, c⟩, ⟨hne, hdig, fun _ => ⟨hc, hb⟩⟩, ?_, ?_, ?_, ?_⟩
          · simp [Token.serialize, ← hsplit]
          · simp [Token.serialize, Nat.add_assoc]
          · simp [Token.expand]
          · simp only [List.length_append, List.length_replicate]; omega

theorem decodeLoop_ok_inv (maxLen : Nat) (st2 : DecodeState) : ∀ (n : Nat) (st : DecodeState),
    st.rest.length = n → decodeLoop maxLen st = .ok st2 →
    st.decompressedText.length ≤ maxLen →
    ∃ ts : List Token, (∀ t ∈ ts, t.WellFormed) ∧ st.rest = serialize ts ∧ st2.rest = [] ∧
      st2.i = st.i + st.rest.length ∧
      st2.decompressedText = st.decompressedText ++ expand ts ∧
      st2.decompressedText.length ≤ maxLen := by
  intro n
  induction n using Nat.strong_induction_on with
  | _ n ih =>
    intro st hn h hout
    rw [decodeLoop_unfold] at h
    by_cases hnil : st.rest = []
    · simp only [hnil, if_true, Except.ok.injEq] at h
      subst h
      exact ⟨[], by simp, by simp [hnil, serialize], hnil, by simp [hnil],
        by simp [expand], hout⟩
    · simp only [hnil, if_false] at h
      cases hp : decodePass maxLen st with
      | error e => simp [hp] at h
      | ok st1 =>
        simp only [hp] at h
        obtain ⟨t, ht, hrest, hi, htext, hlen⟩ := decodePass_ok_inv maxLen st st1 hp
        have hpos : 0 < t.serialize.length :=
          List.length_pos.mpr t.serialize_ne_nil
        have hlt : st1.rest.length < n := by
          rw [← hn, hrest, List.length_append]; omega
        obtain ⟨ts, hts, hrest1, hnil2, hi2, htext2, hlen2⟩ :=
          ih st1.rest.length hlt st1 rfl h hlen
        refine ⟨t :: ts, ?_, ?_, hnil2, ?_, ?_, hlen2⟩
        · intro u hu
          rcases List.mem_cons.mp hu with rfl | hu
          · exact ht
          · exact hts u hu
        · rw [serialize_cons, hrest, hrest1]
        · rw [hi2, hi, hrest, List.length_append]; omega
        · rw [htext2, htext, expand_cons, List.append_assoc]

theorem decompressRLE_ok_inv (maxLen : Nat) (s text : List Nat)
    (h : decompressRLE maxLen s = .ok text) :
    ∃ ts : List Token, (∀ t ∈ ts, t.WellFormed) ∧ s = serialize ts ∧ text = expand ts ∧
      (expand ts).length ≤ maxLen := by
  unfold decompressRLE at h
  by_cases hnil : s = []
  · simp only [hnil, if_true, Except.ok.injEq] at h
    subst h
    exact ⟨[], by simp, by simp [hnil, serialize], by simp [expand], by simp [expand]⟩
  · simp only [hnil, if_false] at h
    cases hl : decodeLoop maxLen ⟨0, s, []⟩ with
    | error e => simp [hl] at h
    | ok st2 =>
      simp only [hl, Except.ok.injEq] at h
      obtain ⟨ts, hts, hrest, _, _, htext, hlen⟩ :=
        decodeLoop_ok_inv maxLen st2 s.length ⟨0, s, []⟩ rfl hl (Nat.zero_le _)
      simp only [List.nil_append] at htext
      exact ⟨ts, hts, hrest, by rw [← h, htext], by rw [← htext]; exact hlen⟩

/-! ## Decoding past an accepted stream -/

theorem decompressRLE_append (maxLen : Nat) (s text r : List Nat)
    (hs : decompressRLE maxLen s = .ok text) (hr : r ≠ []) :
    decompressRLE maxLen (s ++ r) =
      match decodeLoop maxLen ⟨s.length, r, text⟩ with
      | .error e => .error e
      | .ok st => .ok st.decompressedText := by
  obtain ⟨ts, hts, hser, htext, hfit⟩ := decompressRLE_ok_inv maxLen s text hs
  have hne : s ++ r ≠ [] := by simp [hr]
  have hfit1 : ¬ maxLen < ([] : List Nat).length + (expand ts).length := by
    simp only [List.length_nil, Nat.zero_add]; omega
  unfold decompressRLE
  rw [if_neg hne]
  conv_lhs => rw [hser, decodeLoop_tokens maxLen ts hts r 0 [] (Nat.zero_le _), if_neg hfit1]
  rw [hser, htext]
  simp

theorem decodePass_missingCount (maxLen i c : Nat) (r out : List Nat)
    (hc : isDecDigit c = false) :
    decodePass maxLen ⟨i, c :: r, out⟩ = .error (.missingCount i) := by
  unfold decodePass
  rw [digitLoop_eq]
  simp [hc]

theorem decodePass_countNotFollowed (maxLen i : Nat) (d out : List Nat) (hne : d ≠ [])
    (hd : ∀ x ∈ d, isDecDigit x = true) :
    decodePass maxLen ⟨i, d, out⟩ = .error .countNotFollowed := by
  have hsplit := takeWhile_digits_append d [] hd (by simp)
  rw [List.append_nil] at hsplit
  unfold decodePass
  rw [digitLoop_eq]
  simp [hsplit.1, hsplit.2, hne]

theorem decodePass_escapeAtEnd (maxLen i : Nat) (d out : List Nat) (hne : d ≠ [])
    (hd : ∀ x ∈ d, isDecDigit x = true) :
    decodePass maxLen ⟨i, d ++ [backslash], out⟩ = .error .escapeAtEnd := by
  have hsplit := takeWhile_digits_append d [backslash] hd (by simp [backslash, isDecDigit])
  unfold decodePass
  rw [digitLoop_eq]
  simp [hsplit.1, hsplit.2, hne]

/-! ## The encoder and the maximal runs -/

theorem replaceRuns_cons (callback : List Nat → List Nat) (c : Nat) (rest : List Nat) :
    replaceRuns callback (c :: rest) =
      callback (c :: rest.takeWhile (· == c)) ++
        replaceRuns callback (rest.dropWhile (· == c)) := by
  rw [replaceRuns]

theorem specRunsFrom_eq (l : List Nat) : ∀ (cur n : Nat),
    specRunsFrom cur n l =
      (cur, n + (l.takeWhile (· == cur)).length) :: specRuns (l.dropWhile (· == cur)) := by
  induction l with
  | nil => intro cur n; simp [specRunsFrom, specRuns]
  | cons c rest ih =>
    intro cur n
    unfold specRunsFrom
    by_cases hc : c = cur
    · subst hc
      simp [ih, Nat.add_assoc, Nat.add_comm 1]
    · simp [hc, specRuns]

theorem encodeRun_eq (c : Nat) (tail : List Nat) :
    encodeRun (c :: tail) = specToken (c, tail.length + 1) := by
  unfold encodeRun specToken
  simp only [isNaN_parseInt_single, Bool.not_not, List.length_cons, numberToString_eq]
  by_cases h : isDecDigit c = true ∨ c = backslash
  · have : (isDecDigit c || c == backslash) = true := by simpa using h
    simp [h, this]
  · have : ¬ ((isDecDigit c || c == backslash) = true) := by simpa using h
    simp [h, this]

theorem replaceRuns_eq_spec (n : Nat) : ∀ text : List Nat, text.length = n →
    replaceRuns encodeRun text = specEncode text := by
  induction n using Nat.strong_induction_on with
  | _ n ih =>
    intro text hn
    cases text with
    | nil => simp [replaceRuns, specEncode, specRuns]
    | cons c rest =>
      have hlt : (rest.dropWhile (· == c)).length < n := by
        rw [← hn]
        exact Nat.lt_succ_of_le (List.dropWhile_sublist _).length_le
      have hruns : specRuns (c :: rest) = specRunsFrom c 1 rest := rfl
      rw [replaceRuns_cons, ih _ hlt _ rfl, encodeRun_eq]
      unfold specEncode
      rw [hruns, specRunsFrom_eq, List.flatMap_cons, Nat.add_comm]

theorem compressRLE_eq_spec (text : List Nat) : compressRLE text = specEncode text := by
  unfold compressRLE
  by_cases h : text = []
  · simp [h, specEncode, specRuns]
  · rw [if_neg h]; exact replaceRuns_eq_spec _ text rfl

theorem runToken_wellFormed (run : Nat × Nat) : (runToken run).WellFormed := by
  refine ⟨decimalNumeral_ne_nil _, decimalNumeral_digits _, ?_⟩
  intro h
  simp only [runToken, decide_eq_false_iff_not, not_or] at h
  exact ⟨by simpa using h.1, h.2⟩

theorem runToken_serialize (run : Nat × Nat) : (runToken run).serialize = specToken run := by
  unfold runToken Token.serialize specToken
  by_cases h : isDecDigit run.1 = true ∨ run.1 = backslash
  · simp [h]
  · simp [h]

theorem runToken_expand (run : Nat × Nat) :
    (runToken run).expand = List.replicate run.2 run.1 := by
  simp [runToken, Token.expand, decimalValue_numeral]

theorem specEncode_eq_serialize (text : List Nat) :
    specEncode text = serialize ((specRuns text).map runToken) := by
  unfold specEncode serialize
  rw [List.flatMap_map]
  congr 1
  funext run
  exact (runToken_serialize run).symm

theorem expand_specRunsFrom (l : List Nat) : ∀ (cur n : Nat),
    expand ((specRunsFrom cur n l).map runToken) = List.replicate n cur ++ l := by
  induction l with
  | nil => intro cur n; simp [specRunsFrom, expand, runToken_expand]
  | cons c rest ih =>
    intro cur n
    unfold specRunsFrom
    by_cases hc : c = cur
    · subst hc
      rw [if_pos rfl, ih, List.replicate_succ', List.append_assoc]
      rfl
    · rw [if_neg hc, List.map_cons, expand_cons, ih, runToken_expand]
      rfl

theorem expand_specRuns (text : List Nat) : expand ((specRuns text).map runToken) = text := by
  cases text with
  | nil => simp [specRuns, expand]
  | cons c rest =>
    have hruns : specRuns (c :: rest) = specRunsFrom c 1 rest := rfl
    rw [hruns, expand_specRunsFrom]
    rfl

theorem decompressRLE_compressRLE (maxLen : Nat) (text : List Nat)
    (hfit : text.length ≤ maxLen) : decompressRLE maxLen (compressRLE text) = .ok text := by
  have hts : ∀ t ∈ (specRuns text).map runToken, t.WellFormed := by
    intro t ht
    obtain ⟨run, _, rfl⟩ := List.mem_map.mp ht
    exact runToken_wellFormed run
  rw [compressRLE_eq_spec, specEncode_eq_serialize, decompressRLE_tokens maxLen _ hts,
    expand_specRuns]
  simp [hfit]

theorem specRunsFrom_chain (l : List Nat) : ∀ (cur n : Nat), List.Chain (· ≠ ·) cur l →
    specRunsFrom cur n l = (cur, n) :: l.map (fun c => (c, 1)) := by
  induction l with
  | nil => intro cur n _; rfl
  | cons c rest ih =>
    intro cur n h
    obtain ⟨hne, hrest⟩ := List.chain_cons.mp h
    unfold specRunsFrom
    rw [if_neg (Ne.symm hne), ih c 1 hrest, List.map_cons]

theorem specRuns_chain (text : List Nat) (h : text.Chain' (· ≠ ·)) :
    specRuns text = text.map (fun c => (c, 1)) := by
  cases text with
  | nil => rfl
  | cons c rest => exact specRunsFrom_chain rest c 1 h

theorem specRunsFrom_replicate (c : Nat) (m : Nat) : ∀ k : Nat,
    specRunsFrom c k (List.replicate m c) = [(c, k + m)] := by
  induction m with
  | zero => intro k; rfl
  | succ m ih =>
    intro k
    rw [List.replicate_succ]
    unfold specRunsFrom
    rw [if_pos rfl, ih, Nat.add_assoc, Nat.add_comm 1]

theorem decimalNumeral_one : decimalNumeral 1 = [49] := by
  simp [decimalNumeral]

/-! ## What a `RangeError` means -/

theorem decodePass_rangeError_inv (maxLen : Nat) (st : DecodeState)
    (h : decodePass maxLen st = .error .rangeError) :
    ∃ (t : Token) (rest : List Nat), t.WellFormed ∧ st.rest = t.serialize ++ rest ∧
      maxLen < st.decompressedText.length + t.expand.length := by
  unfold decodePass at h
  rw [digitLoop_eq] at h
  have hsplit : st.rest.takeWhile isDecDigit ++ st.rest.dropWhile isDecDigit = st.rest :=
    List.takeWhile_append_dropWhile _ _
  have hdig : ∀ x ∈ st.rest.takeWhile isDecDigit, isDecDigit x = true :=
    fun x hx => List.mem_takeWhile_imp hx
  generalize st.rest.takeWhile isDecDigit = d at h hsplit hdig
  generalize hr : st.rest.dropWhile isDecDigit = r at h hsplit
  simp only [List.nil_append] at h
  by_cases hne : d = []
  · simp [hne] at h
  · simp only [hne, if_false, parseInt_digits d hne hdig] at h
    cases r with
    | nil => simp at h
    | cons c r1 =>
      have hc := dropWhile_head_not _ _ _ hr
      simp only at h
      by_cases hb : c = backslash
      · simp only [hb, if_true] at h
        cases r1 with
        | nil => simp at h
        | cons c2 r2 =>
          simp only at h
          rw [expandStep maxLen (decimalValue d) c2 st.decompressedText
            (fun text => ⟨st.i + d.length + 2, r2, text⟩)] at h
          by_cases hfit : maxLen < st.decompressedText.length + decimalValue d
          · refine ⟨⟨d, true, c2⟩, r2, ⟨hne, hdig, by simp⟩, ?_, ?_⟩
            · simp [Token.serialize, ← hsplit, hb]
            · simpa [Token.expand] using hfit
          · simp [hfit] at h
      · simp only [hb, if_false] at h
        rw [expandStep maxLen (decimalValue d) c st.decompressedText
          (fun text => ⟨st.i + d.length + 1, r1, text⟩)] at h
        by_cases hfit : maxLen < st.decompressedText.length + decimalValue d
        · refine ⟨⟨d, false, c⟩, r1, ⟨hne, hdig, fun _ => ⟨hc, hb⟩⟩, ?_, ?_⟩
          · simp [Token.serialize, ← hsplit]
          · simpa [Token.expand] using hfit
        · simp [hfit] at h

theorem decodeLoop_rangeError_inv (maxLen : Nat) : ∀ (n : Nat) (st : DecodeState),
    st.rest.length = n → decodeLoop maxLen st = .error .rangeError →
    ∃ (ts : List Token) (rest : List Nat), (∀ t ∈ ts, t.WellFormed) ∧
      st.rest = serialize ts ++ rest ∧
      maxLen < st.decompressedText.length + (expand ts).length := by
  intro n
  induction n using Nat.strong_induction_on with
  | _ n ih =>
    intro st hn h
    rw [decodeLoop_unfold] at h
    by_cases hnil : st.rest = []
    · simp [hnil] at h
    · simp only [hnil, if_false] at h
      cases hp : decodePass maxLen st with
      | error e =>
        simp only [hp, Except.error.injEq] at h
        subst h
        obtain ⟨t, rest, ht, hrest, hover⟩ := decodePass_rangeError_inv maxLen st hp
        refine ⟨[t], rest, ?_, ?_, ?_⟩
        · intro u hu
          rw [List.mem_singleton.mp hu]; exact ht
        · simpa [serialize] using hrest
        · simpa [expand] using hover
      | ok st1 =>
        simp only [hp] at h
        obtain ⟨t, ht, hrest, _, htext, _⟩ := decodePass_ok_inv maxLen st st1 hp
        have hpos : 0 < t.serialize.length :=
          List.length_pos.mpr t.serialize_ne_nil
        have hlt : st1.rest.length < n := by
          rw [← hn, hrest, List.length_append]; omega
        obtain ⟨ts, rest, hts, hrest1, hover⟩ := ih st1.rest.length hlt st1 rfl h
        refine ⟨t :: ts, rest, ?_, ?_, ?_⟩
        · intro u hu
          rcases List.mem_cons.mp hu with rfl | hu
          · exact ht
          · exact hts u hu
        · rw [serialize_cons, hrest, hrest1, List.append_assoc]
        · rw [htext, List.length_append] at hover
          rw [expand_cons, List.length_append]; omega

theorem decompressRLE_rangeError_inv (maxLen : Nat) (s : List Nat)
    (h : decompressRLE maxLen s = .error .rangeError) :
    ∃ (ts : List Token) (rest : List Nat), (∀ t ∈ ts, t.WellFormed) ∧
      s = serialize ts ++ rest ∧ maxLen < (expand ts).length := by
  unfold decompressRLE at h
  by_cases hnil : s = []
  · simp [hnil] at h
  · simp only [hnil, if_false] at h
    cases hl : decodeLoop maxLen ⟨0, s, []⟩ with
    | ok st2 => simp [hl] at h
    | error e =>
      simp only [hl, Except.error.injEq] at h
      subst h
      obtain ⟨ts, rest, hts, hrest, hover⟩ :=
        decodeLoop_rangeError_inv maxLen s.length ⟨0, s, []⟩ rfl hl
      exact ⟨ts, rest, hts, hrest, by simpa using hover⟩

theorem decompressRLE_token_rangeError (maxLen : Nat) (t : Token) (ht : t.WellFormed)
    (hover : maxLen < decimalValue t.digits) :
    decompressRLE maxLen (serialize [t]) = .error .rangeError := by
  have hts : ∀ u ∈ [t], u.WellFormed := by
    intro u hu
    rw [List.mem_singleton.mp hu]; exact ht
  have hlen : (expand [t]).length = decimalValue t.digits := by
    simp [expand, Token.expand]
  rw [decompressRLE_tokens maxLen _ hts, hlen, if_pos hover]

theorem decimalValue_two_pow_53 : decimalValue (codeUnits "9007199254740992") = 2 ^ 53 := by
  simp [decimalValue, codeUnits, Nat.ofDigits]

/-! ## The claims -/

/-- C3, as stated, fails: the well-formed token `9007199254740992a` (count `2 ^ 53`)
is not expanded on any engine, whose longest string is below `2 ^ 53` units: `repeat`
raises a `RangeError`. -/
theorem decompressRLE_count_beyond_limit :
    (Token.mk (codeUnits "9007199254740992") false 97).WellFormed ∧
      serialize [Token.mk (codeUnits "9007199254740992") false 97] =
        codeUnits "9007199254740992a" ∧
      ∀ maxLen : Nat, maxLen < 2 ^ 53 →
        decompressRLE maxLen (codeUnits "9007199254740992a") = .error .rangeError := by
  have hwf : (Token.mk (codeUnits "9007199254740992") false 97).WellFormed := by decide
  have hser : serialize [Token.mk (codeUnits "9007199254740992") false 97] =
      codeUnits "9007199254740992a" := by decide
  refine ⟨hwf, hser, ?_⟩
  intro maxLen hlt
  rw [← hser]
  exact decompressRLE_token_rangeError maxLen _ hwf (by rw [decimalValue_two_pow_53]; exact hlt)

/-- C3, amended: for every list of tokens (digits, then one unit that is neither a digit nor
the backslash, or a backslash and any unit), `decompressRLE` of their concatenation returns
the concatenation, in order, of each literal repeated as often as the base-10 value of its
count, when that text is no longer than the engine longest string, and raises a `RangeError`
when it is longer; an escaped unit is the literal whatever it is. -/
theorem decompressRLE_expands_tokens (maxLen : Nat) (ts : List Token)
    (hts : ∀ t ∈ ts, t.WellFormed) :
    decompressRLE maxLen (serialize ts) =
      if (expand ts).length ≤ maxLen then .ok (expand ts) else .error .rangeError := by
  rw [decompressRLE_tokens maxLen ts hts]
  by_cases h : (expand ts).length ≤ maxLen
  · rw [if_pos h, if_neg (by omega)]
  · rw [if_neg h, if_pos (by omega)]

/-- The tokens `3a`, `1b` decode to `aaab`, and the token `1\5` decodes to `5`; on an
engine whose longest string has 3 units `3a1b` raises a `RangeError`. -/
theorem decompressRLE_expands_tokens_witness :
    decompressRLE (2 ^ 29 - 24) (codeUnits "3a1b") = .ok (codeUnits "aaab") ∧
      decompressRLE (2 ^ 29 - 24) [49, 92, 53] = .ok [53] ∧
      decompressRLE 3 (codeUnits "3a1b") = .error .rangeError := by
  have h1 := decompressRLE_expands_tokens (2 ^ 29 - 24)
    [⟨[51], false, 97⟩, ⟨[49], false, 98⟩] (by decide)
  have h2 := decompressRLE_expands_tokens (2 ^ 29 - 24) [⟨[49], true, 53⟩] (by decide)
  have h3 := decompressRLE_expands_tokens 3 [⟨[51], false, 97⟩, ⟨[49], false, 98⟩] (by decide)
  rw [if_pos (by decide)] at h1 h2
  rw [if_neg (by decide)] at h3
  exact ⟨h1, h2, h3⟩

/-- C4, as stated, fails: the stream `9007199254740992\5` is one token of the grammar, and
on every engine `decompressRLE` raises on it, with a `RangeError`, which is none of the
three kinds of the claim. -/
theorem decompressRLE_raises_on_grammar :
    (∃ ts : List Token, (∀ t ∈ ts, t.WellFormed) ∧
        codeUnits "9007199254740992" ++ [92, 53] = serialize ts) ∧
      ∀ maxLen : Nat, maxLen < 2 ^ 53 →
        decompressRLE maxLen (codeUnits "9007199254740992" ++ [92, 53]) =
          .error .rangeError := by
  have hwf : (Token.mk (codeUnits "9007199254740992") true 53).WellFormed := by decide
  have hser : serialize [Token.mk (codeUnits "9007199254740992") true 53] =
      codeUnits "9007199254740992" ++ [92, 53] := by decide
  refine ⟨⟨[⟨codeUnits "9007199254740992", true, 53⟩], ?_, hser.symm⟩, ?_⟩
  · intro t ht
    rw [List.mem_singleton.mp ht]; exact hwf
  · intro maxLen hlt
    rw [← hser]
    exact decompressRLE_token_rangeError maxLen _ hwf
      (by rw [decimalValue_two_pow_53]; exact hlt)

/-- C4, amended: `decompressRLE s` returns a text if and only if `s` is a concatenation of
zero or more tokens whose expansion is no longer than the engine longest string.  When it
raises, the error is one of four kinds: missing count, count not followed by character,
escape at end of stream, or the `RangeError` of the engine; the `RangeError` is raised only
when the tokens read so far expand beyond the longest string, and it is the only error on a
stream that is a concatenation of tokens. -/
theorem decompressRLE_ok_iff_grammar (maxLen : Nat) (s : List Nat) :
    ((∃ text, decompressRLE maxLen s = .ok text) ↔
        ∃ ts : List Token, (∀ t ∈ ts, t.WellFormed) ∧ s = serialize ts ∧
          (expand ts).length ≤ maxLen) ∧
      (∀ e, decompressRLE maxLen s = .error e →
        (∃ position, e = .missingCount position) ∨ e = .countNotFollowed ∨
          e = .escapeAtEnd ∨ e = .rangeError) ∧
      (decompressRLE maxLen s = .error .rangeError →
        ∃ (ts : List Token) (rest : List Nat), (∀ t ∈ ts, t.WellFormed) ∧
          s = serialize ts ++ rest ∧ maxLen < (expand ts).length) ∧
      (∀ e, decompressRLE maxLen s = .error e →
        (∃ ts : List Token, (∀ t ∈ ts, t.WellFormed) ∧ s = serialize ts) →
          e = .rangeError) := by
  refine ⟨⟨?_, ?_⟩, ?_, decompressRLE_rangeError_inv maxLen s, ?_⟩
  · rintro ⟨text, h⟩
    obtain ⟨ts, hts, hser, _, hfit⟩ := decompressRLE_ok_inv maxLen s text h
    exact ⟨ts, hts, hser, hfit⟩
  · rintro ⟨ts, hts, hser, hfit⟩
    refine ⟨expand ts, ?_⟩
    rw [hser, decompressRLE_tokens maxLen ts hts, if_neg (by omega)]
  · intro e _
    cases e with
    | missingCount position => exact Or.inl ⟨position, rfl⟩
    | countNotFollowed => exact Or.inr (Or.inl rfl)
    | escapeAtEnd => exact Or.inr (Or.inr (Or.inl rfl))
    | rangeError => exact Or.inr (Or.inr (Or.inr rfl))
  · rintro e h ⟨ts, hts, hser⟩
    rw [hser, decompressRLE_tokens maxLen ts hts] at h
    by_cases hfit : maxLen < (expand ts).length
    · rw [if_pos hfit] at h
      exact (Except.error.inj h).symm
    · rw [if_neg hfit] at h
      cases h

/-- C5: a missing count is rejected with its position.  For every stream `s` that
`decompressRLE` accepts (the empty one included) and every non-empty stream `c :: r` whose
first unit `c` is not a decimal digit, `decompressRLE (s ++ c :: r)` raises the missing-count
error and reports the position `s.length`; the result carries no text. -/
theorem missing_count_rejected (maxLen : Nat) (s text : List Nat) (c : Nat) (r : List Nat)
    (hs : decompressRLE maxLen s = .ok text) (hc : isDecDigit c = false) :
    decompressRLE maxLen (s ++ c :: r) = .error (.missingCount s.length) := by
  rw [decompressRLE_append maxLen s text (c :: r) hs (by simp), decodeLoop_unfold]
  simp [decodePass_missingCount maxLen s.length c r text hc]

/-- The stream `a` raises missing count at position 0. -/
theorem missing_count_rejected_witness :
    decompressRLE (2 ^ 29 - 24) (codeUnits "a") = .error (.missingCount 0) :=
  missing_count_rejected (2 ^ 29 - 24) [] [] 97 [] rfl (by decide)

/-- C6: a count at the end of the stream is rejected.  For every stream `s` that
`decompressRLE` accepts (the empty one included) and every non-empty string `d` of decimal
digits, `decompressRLE (s ++ d)` raises the count-not-followed-by-character error. -/
theorem trailing_count_rejected (maxLen : Nat) (s text d : List Nat)
    (hs : decompressRLE maxLen s = .ok text) (hne : d ≠ [])
    (hd : ∀ x ∈ d, isDecDigit x = true) :
    decompressRLE maxLen (s ++ d) = .error .countNotFollowed := by
  rw [decompressRLE_append maxLen s text d hs hne, decodeLoop_unfold]
  simp [hne, decodePass_countNotFollowed maxLen s.length d text hne hd]

/-- The stream `3` raises count not followed by character. -/
theorem trailing_count_rejected_witness :
    decompressRLE (2 ^ 29 - 24) (codeUnits "3") = .error .countNotFollowed :=
  trailing_count_rejected (2 ^ 29 - 24) [] [] [51] rfl (by decide) (by decide)

/-- C7: a trailing escape marker is rejected.  For every stream `s` that `decompressRLE`
accepts (the empty one included) and every non-empty string `d` of decimal digits,
`decompressRLE (s ++ d ++ [backslash])` raises the escape-at-end-of-stream error. -/
theorem trailing_escape_rejected (maxLen : Nat) (s text d : List Nat)
    (hs : decompressRLE maxLen s = .ok text) (hne : d ≠ [])
    (hd : ∀ x ∈ d, isDecDigit x = true) :
    decompressRLE maxLen (s ++ d ++ [backslash]) = .error .escapeAtEnd := by
  rw [List.append_assoc, decompressRLE_append maxLen s text (d ++ [backslash]) hs (by simp),
    decodeLoop_unfold]
  simp [decodePass_escapeAtEnd maxLen s.length d text hne hd]

/-- The stream `1\` raises escape at end of stream. -/
theorem trailing_escape_rejected_witness :
    decompressRLE (2 ^ 29 - 24) [49, 92] = .error .escapeAtEnd :=
  trailing_escape_rejected (2 ^ 29 - 24) [] [] [49] rfl (by decide) (by decide)

/-- C9: already-minimal runs.  For every text in which no two adjacent units are equal,
`compressRLE` returns one token per unit `c`, in order: the digit `1`, then a backslash if
and only if `c` is a digit or the backslash, then `c`. -/
theorem compressRLE_no_adjacent_equal (T : List Nat) (h : T.Chain' (· ≠ ·)) :
    compressRLE T =
      T.flatMap fun c => [49] ++ (if (48 ≤ c ∧ c ≤ 57) ∨ c = 92 then [92] else []) ++ [c] := by
  rw [compressRLE_eq_spec, specEncode, specRuns_chain T h, List.flatMap_map]
  congr 1
  funext c
  simp [specToken, decimalNumeral_one, isDecDigit, backslash]

/-- The text `a5\a` is encoded as `1a1\51\\1a`. -/
theorem compressRLE_no_adjacent_equal_witness :
    compressRLE [97, 53, 92, 97] = [49, 97, 49, 92, 53, 49, 92, 92, 49, 97] := by
  simpa using compressRLE_no_adjacent_equal [97, 53, 92, 97] (by simp)

/-- C10: `compressRLE` is injective: texts with the same encoding are equal; in particular
only the empty text is encoded as the empty stream. -/
theorem compressRLE_injective (T1 T2 : List Nat) :
    (compressRLE T1 = compressRLE T2 → T1 = T2) ∧ (compressRLE T1 = [] → T1 = []) := by
  have key : ∀ A B : List Nat, compressRLE A = compressRLE B → A = B := by
    intro A B h
    have hA := decompressRLE_compressRLE (max A.length B.length) A (Nat.le_max_left _ _)
    have hB := decompressRLE_compressRLE (max A.length B.length) B (Nat.le_max_right _ _)
    rw [h, hB] at hA
    exact (Except.ok.inj hA).symm
  exact ⟨key T1 T2, fun h => key T1 [] (by rw [h]; rfl)⟩

/-- Injectivity at the text `aa`, and at the empty text. -/
theorem compressRLE_injective_witness :
    (compressRLE [97, 97] = compressRLE [97, 97] → [97, 97] = [97, 97]) ∧
      (compressRLE [] = [] → ([] : List Nat) = []) :=
  ⟨(compressRLE_injective [97, 97] [97, 97]).1, (compressRLE_injective [] []).2⟩

/-! ## Runs of a concatenation -/

theorem specRunsFrom_append (l B : List Nat) : ∀ (cur n : Nat),
    (∀ a b, (cur :: l).getLast? = some a → B.head? = some b → a ≠ b) →
    specRunsFrom cur n (l ++ B) = specRunsFrom cur n l ++ specRuns B := by
  induction l with
  | nil =>
    intro cur n h
    cases B with
    | nil => simp [specRunsFrom, specRuns]
    | cons b rest =>
      have hne : cur ≠ b := h cur b (by simp) (by simp)
      simp [specRunsFrom, specRuns, Ne.symm hne]
  | cons c rest ih =>
    intro cur n h
    have hlast : ∀ a b, (c :: rest).getLast? = some a → B.head? = some b → a ≠ b := by
      intro a b ha hb
      exact h a b (by rw [List.getLast?_cons_cons]; exact ha) hb
    rw [List.cons_append]
    unfold specRunsFrom
    by_cases hc : c = cur
    · rw [if_pos hc, if_pos hc, ih cur (n + 1) (by rw [← hc]; exact hlast)]
    · rw [if_neg hc, if_neg hc, ih c 1 hlast, List.cons_append]

theorem specRuns_append (A B : List Nat)
    (h : ∀ a b, A.getLast? = some a → B.head? = some b → a ≠ b) :
    specRuns (A ++ B) = specRuns A ++ specRuns B := by
  cases A with
  | nil => simp [specRuns]
  | cons c rest => exact specRunsFrom_append rest B c 1 h

theorem compressRLE_append_boundary (A B : List Nat)
    (h : ∀ a b, A.getLast? = some a → B.head? = some b → a ≠ b) :
    compressRLE (A ++ B) = compressRLE A ++ compressRLE B := by
  rw [compressRLE_eq_spec, compressRLE_eq_spec, compressRLE_eq_spec, specEncode, specEncode,
    specEncode, specRuns_append A B h, List.flatMap_append]

/-! ## The counts the encoder writes -/

theorem decimalNumeral_head (n : Nat) (hn : 1 ≤ n) :
    ∃ c rest, decimalNumeral n = c :: rest ∧ 49 ≤ c ∧ c ≤ 57 := by
  have h0 : n ≠ 0 := by omega
  have hne : Nat.digits 10 n ≠ [] := Nat.digits_ne_nil_iff_ne_zero.mpr h0
  have hlast := Nat.getLast_digit_ne_zero 10 h0
  have hmem : (Nat.digits 10 n).getLast hne ∈ Nat.digits 10 n := List.getLast_mem hne
  have hlt := Nat.digits_lt_base (by norm_num : 1 < 10) hmem
  have hrev : (Nat.digits 10 n).reverse ≠ [] := by simpa using hne
  obtain ⟨x, r, hxr⟩ := List.exists_cons_of_ne_nil hrev
  have hx : x = (Nat.digits 10 n).getLast hne := by
    have h1 : (Nat.digits 10 n).reverse.head? = some x := by rw [hxr]; rfl
    rw [List.head?_reverse, List.getLast?_eq_getLast _ hne] at h1
    exact (Option.some.inj h1).symm
  refine ⟨48 + x, r.map (48 + ·), ?_, ?_, ?_⟩
  · simp [decimalNumeral, h0, hxr]
  · rw [hx]; omega
  · rw [hx]; omega

theorem specRunsFrom_pos (l : List Nat) : ∀ (cur n : Nat), 1 ≤ n →
    ∀ run ∈ specRunsFrom cur n l, 1 ≤ run.2 := by
  induction l with
  | nil =>
    intro cur n hn run hrun
    simp only [specRunsFrom, List.mem_singleton] at hrun
    rw [hrun]; exact hn
  | cons c rest ih =>
    intro cur n hn run hrun
    unfold specRunsFrom at hrun
    by_cases hc : c = cur
    · rw [if_pos hc] at hrun
      exact ih cur (n + 1) (by omega) run hrun
    · rw [if_neg hc] at hrun
      rcases List.mem_cons.mp hrun with h | h
      · rw [h]; exact hn
      · exact ih c 1 (Nat.le_refl 1) run h

theorem specRuns_pos (text : List Nat) : ∀ run ∈ specRuns text, 1 ≤ run.2 := by
  cases text with
  | nil => intro run hrun; simp [specRuns] at hrun
  | cons c rest => exact specRunsFrom_pos rest c 1 (Nat.le_refl 1)

/-! ## The length of the encoding -/

theorem digits_length_le (n : Nat) : (Nat.digits 10 n).length ≤ n := by
  induction n using Nat.strong_induction_on with
  | _ n ih =>
    by_cases h0 : n = 0
    · subst h0; simp
    · rw [Nat.digits_def' (by norm_num : 1 < 10) (by omega : 0 < n), List.length_cons]
      have := ih (n / 10) (by omega)
      omega

theorem specToken_length_le (run : Nat × Nat) (hn : 1 ≤ run.2) :
    (specToken run).length ≤ run.2 + 2 ∧
      (isDecDigit run.1 = false ∧ run.1 ≠ backslash → (specToken run).length ≤ run.2 + 1) := by
  have h0 : run.2 ≠ 0 := by omega
  have hlen := digits_length_le run.2
  have hnum : (decimalNumeral run.2).length = (Nat.digits 10 run.2).length := by
    simp [decimalNumeral, h0]
  constructor
  · unfold specToken
    by_cases h : isDecDigit run.1 = true ∨ run.1 = backslash
    · simp only [h, if_true, List.length_append, List.length_cons, List.length_nil, hnum]
      omega
    · simp only [h, if_false, List.length_append, List.length_cons, List.length_nil, hnum]
      omega
  · rintro ⟨hd, hb⟩
    have h : ¬ (isDecDigit run.1 = true ∨ run.1 = backslash) := by simp [hd, hb]
    unfold specToken
    simp only [h, if_false, List.length_append, List.length_cons, List.length_nil, hnum]
    omega

theorem specRunsFrom_length_le (l : List Nat) : ∀ (cur n : Nat), 1 ≤ n →
    ((specRunsFrom cur n l).flatMap specToken).length ≤ 3 * (n + l.length) := by
  induction l with
  | nil =>
    intro cur n hn
    have := (specToken_length_le (cur, n) hn).1
    simp only [specRunsFrom, List.flatMap_cons, List.flatMap_nil, List.append_nil,
      List.length_nil] at this ⊢
    omega
  | cons c rest ih =>
    intro cur n hn
    unfold specRunsFrom
    by_cases hc : c = cur
    · rw [if_pos hc]
      have := ih cur (n + 1) (by omega)
      simp only [List.length_cons]
      omega
    · rw [if_neg hc, List.flatMap_cons, List.length_append]
      have h1 := (specToken_length_le (cur, n) hn).1
      have h2 := ih c 1 (Nat.le_refl 1)
      simp only [List.length_cons] at h1 ⊢
      omega

theorem specRunsFrom_length_le_plain (l : List Nat) : ∀ (cur n : Nat), 1 ≤ n →
    (∀ x ∈ cur :: l, isDecDigit x = false ∧ x ≠ backslash) →
    ((specRunsFrom cur n l).flatMap specToken).length ≤ 2 * (n + l.length) := by
  induction l with
  | nil =>
    intro cur n hn hplain
    have := (specToken_length_le (cur, n) hn).2 (hplain cur (List.mem_cons_self _ _))
    simp only [specRunsFrom, List.flatMap_cons, List.flatMap_nil, List.append_nil,
      List.length_nil] at this ⊢
    omega
  | cons c rest ih =>
    intro cur n hn hplain
    have hrest : ∀ x ∈ c :: rest, isDecDigit x = false ∧ x ≠ backslash :=
      fun x hx => hplain x (List.mem_cons_of_mem _ hx)
    unfold specRunsFrom
    by_cases hc : c = cur
    · rw [if_pos hc]
      have := ih cur (n + 1) (by omega) (by
        intro x hx
        rcases List.mem_cons.mp hx with h | h
        · rw [h]; exact hplain cur (List.mem_cons_self _ _)
        · exact hrest x (List.mem_cons_of_mem _ h))
      simp only [List.length_cons]
      omega
    · rw [if_neg hc, List.flatMap_cons, List.length_append]
      have h1 := (specToken_length_le (cur, n) hn).2 (hplain cur (List.mem_cons_self _ _))
      have h2 := ih c 1 (Nat.le_refl 1) hrest
      simp only [List.length_cons] at h1 ⊢
      omega

/-! ## Progress of the decoder -/

theorem Token.serialize_length (t : Token) :
    t.serialize.length = t.digits.length + (if t.escaped then 2 else 1) := by
  unfold Token.serialize
  cases t.escaped <;> simp

theorem decodePass_advance (maxLen : Nat) (st st1 : DecodeState)
    (h : decodePass maxLen st = .ok st1) :
    st.i + 2 ≤ st1.i ∧ st1.i + st1.rest.length = st.i + st.rest.length := by
  obtain ⟨t, ht, hrest, hi, _, _⟩ := decodePass_ok_inv maxLen st st1 h
  have hlen := t.serialize_length
  have hd : 0 < t.digits.length := List.length_pos.mpr ht.1
  have h2 : 2 ≤ t.serialize.length := by
    rw [hlen]; split <;> omega
  constructor
  · omega
  · rw [hrest, List.length_append, hi]; omega

theorem digitLoop_position (l : List Nat) (countStr : List Nat) (i : Nat) :
    (digitLoop countStr i l).2.1 + (digitLoop countStr i l).2.2.length = i + l.length ∧
      (digitLoop countStr i l).1.length =
        countStr.length + ((digitLoop countStr i l).2.1 - i) ∧
      i ≤ (digitLoop countStr i l).2.1 := by
  have hsplit : (l.takeWhile isDecDigit ++ l.dropWhile isDecDigit).length = l.length := by
    rw [List.takeWhile_append_dropWhile]
  rw [List.length_append] at hsplit
  rw [digitLoop_eq]
  simp only [List.length_append]
  omega

theorem digitLoop_step (c : Nat) (rest countStr : List Nat) (i : Nat)
    (hc : isDecDigit c = true) :
    digitLoop countStr i (c :: rest) = digitLoop (countStr ++ [c]) (i + 1) rest := by
  conv_lhs => unfold digitLoop
  rw [isNaN_parseInt_single, hc]
  rfl

theorem decodeLoopFuel_eq (maxLen : Nat) : ∀ (fuel : Nat) (st : DecodeState),
    st.rest.length / 2 + 1 ≤ fuel →
    decodeLoopFuel maxLen fuel st = some (decodeLoop maxLen st) := by
  intro fuel
  induction fuel with
  | zero => intro st h; omega
  | succ fuel ih =>
    intro st h
    rw [decodeLoop_unfold]
    unfold decodeLoopFuel
    by_cases hnil : st.rest = []
    · simp [hnil]
    · simp only [hnil, if_false]
      cases hp : decodePass maxLen st with
      | error e => rfl
      | ok st1 =>
        have hadv := decodePass_advance maxLen st st1 hp
        exact ih st1 (by omega)

theorem decodeLoop_final (maxLen : Nat) (s : List Nat) (st : DecodeState)
    (h : decodeLoop maxLen ⟨0, s, []⟩ = .ok st) : st.i = s.length ∧ st.rest = [] := by
  obtain ⟨_, _, _, hnil, hi, _, _⟩ :=
    decodeLoop_ok_inv maxLen st s.length ⟨0, s, []⟩ rfl h (Nat.zero_le _)
  exact ⟨by simpa using hi, hnil⟩

/-! ## Concatenation of accepted streams -/

theorem serialize_append (ts1 ts2 : List Token) :
    serialize (ts1 ++ ts2) = serialize ts1 ++ serialize ts2 := by
  simp [serialize]

theorem expand_append (ts1 ts2 : List Token) :
    expand (ts1 ++ ts2) = expand ts1 ++ expand ts2 := by
  simp [expand]

theorem decompressRLE_concat (maxLen : Nat) (s1 s2 t1 t2 : List Nat)
    (h1 : decompressRLE maxLen s1 = .ok t1) (h2 : decompressRLE maxLen s2 = .ok t2) :
    decompressRLE maxLen (s1 ++ s2) =
      if t1.length + t2.length ≤ maxLen then .ok (t1 ++ t2) else .error .rangeError := by
  obtain ⟨ts1, hts1, hs1, ht1, _⟩ := decompressRLE_ok_inv maxLen s1 t1 h1
  obtain ⟨ts2, hts2, hs2, ht2, _⟩ := decompressRLE_ok_inv maxLen s2 t2 h2
  have hts : ∀ t ∈ ts1 ++ ts2, t.WellFormed := by
    intro t ht
    rcases List.mem_append.mp ht with h | h
    · exact hts1 t h
    · exact hts2 t h
  rw [hs1, hs2, ← serialize_append, decompressRLE_tokens maxLen _ hts, expand_append,
    List.length_append, ← ht1, ← ht2]
  by_cases hfit : t1.length + t2.length ≤ maxLen
  · rw [if_pos hfit, if_neg (by omega)]
  · rw [if_neg hfit, if_pos (by omega)]

theorem decimalValue_300000000 : decimalValue (codeUnits "300000000") = 300000000 := by
  simp [decimalValue, codeUnits, Nat.ofDigits]

/-! ## Canonical streams -/

theorem canonical_numeral (d : List Nat) (hdig : ∀ x ∈ d, isDecDigit x = true)
    (hhead : d.head? ≠ some 48) (hne : d ≠ []) : decimalNumeral (decimalValue d) = d := by
  have hge : ∀ x ∈ d, 48 ≤ x ∧ x ≤ 57 := by
    intro x hx
    have := hdig x hx
    simpa [isDecDigit] using this
  have hw1 : ∀ l ∈ d.reverse.map (· - 48), l < 10 := by
    intro l hl
    obtain ⟨x, hx, rfl⟩ := List.mem_map.mp hl
    have := hge x (List.mem_reverse.mp hx)
    omega
  have hLne : d.reverse.map (· - 48) ≠ [] := by simpa using hne
  have hw2 : ∀ h : d.reverse.map (· - 48) ≠ [], (d.reverse.map (· - 48)).getLast h ≠ 0 := by
    intro h
    obtain ⟨x, rest, rfl⟩ := List.exists_cons_of_ne_nil hne
    have hx := hge x (List.mem_cons_self _ _)
    have hx48 : x ≠ 48 := by
      intro h48
      exact hhead (by rw [h48]; rfl)
    have hlast : (List.map (· - 48) (x :: rest).reverse).getLast? = some (x - 48) := by
      simp
    rw [List.getLast?_eq_getLast _ h] at hlast
    rw [Option.some.inj hlast]
    omega
  have hdigits := Nat.digits_ofDigits 10 (by norm_num) _ hw1 hw2
  have hval : decimalValue d ≠ 0 := by
    intro h0
    unfold decimalValue at h0
    rw [h0] at hdigits
    simp only [Nat.digits_zero] at hdigits
    exact hLne hdigits.symm
  unfold decimalNumeral
  rw [if_neg hval]
  unfold decimalValue
  rw [hdigits, ← List.map_reverse, List.reverse_reverse, List.map_map]
  conv_rhs => rw [← List.map_id d]
  apply List.map_congr_left
  intro x hx
  have := hge x hx
  simp only [Function.comp_apply, id_eq]
  omega

theorem Token.Canonical.wellFormed {t : Token} (h : t.Canonical) : t.WellFormed := by
  obtain ⟨hne, hdig, _, _, hesc⟩ := h
  refine ⟨hne, hdig, ?_⟩
  intro hfalse
  have hnot : ¬ (isDecDigit t.literal = true ∨ t.literal = backslash) := by
    intro hcond
    have := hesc.mpr hcond
    rw [hfalse] at this
    cases this
  exact ⟨by simpa using fun h => hnot (Or.inl h), fun h => hnot (Or.inr h)⟩

theorem specToken_canonical (t : Token) (h : t.Canonical) :
    specToken (t.literal, decimalValue t.digits) = t.serialize := by
  obtain ⟨hne, hdig, hhead, _, hesc⟩ := h
  unfold specToken Token.serialize
  simp only [canonical_numeral t.digits hdig hhead hne]
  by_cases hcond : isDecDigit t.literal = true ∨ t.literal = backslash
  · rw [if_pos hcond, hesc.mpr hcond]
    simp
  · have : t.escaped = false := by
      cases he : t.escaped with
      | false => rfl
      | true => exact absurd (hesc.mp he) hcond
    rw [if_neg hcond, this]
    simp

theorem head?_expand (ts : List Token) (hpos : ∀ t ∈ ts, 1 ≤ decimalValue t.digits) :
    (expand ts).head? = ts.head?.map (·.literal) := by
  cases ts with
  | nil => rfl
  | cons t rest =>
    have h1 := hpos t (List.mem_cons_self _ _)
    obtain ⟨m, hm⟩ : ∃ m, decimalValue t.digits = m + 1 := ⟨decimalValue t.digits - 1, by omega⟩
    simp [expand_cons, Token.expand, hm, List.replicate_succ]

theorem specRuns_replicate (c v : Nat) (hv : 1 ≤ v) :
    specRuns (List.replicate v c) = [(c, v)] := by
  obtain ⟨m, rfl⟩ : ∃ m, v = m + 1 := ⟨v - 1, by omega⟩
  rw [List.replicate_succ]
  show specRunsFrom c 1 (List.replicate m c) = _
  rw [specRunsFrom_replicate, Nat.add_comm]

theorem specRuns_expand (ts : List Token) (hc : CanonicalStream ts) :
    specRuns (expand ts) = ts.map (fun t => (t.literal, decimalValue t.digits)) := by
  induction ts with
  | nil => rfl
  | cons t rest ih =>
    obtain ⟨hall, hchain⟩ := hc
    obtain ⟨hhead, htail⟩ := List.chain'_cons'.mp hchain
    have hrest : CanonicalStream rest :=
      ⟨fun u hu => hall u (List.mem_cons_of_mem _ hu), htail⟩
    have ht := hall t (List.mem_cons_self _ _)
    have hv : 1 ≤ decimalValue t.digits := ht.2.2.2.1
    have hboundary : ∀ a b, (List.replicate (decimalValue t.digits) t.literal).getLast? = some a →
        (expand rest).head? = some b → a ≠ b := by
      intro a b ha hb
      have hat : a = t.literal := List.eq_of_mem_replicate (List.mem_of_getLast?_eq_some ha)
      rw [head?_expand rest (fun u hu => (hrest.1 u hu).2.2.2.1)] at hb
      cases hrest' : rest.head? with
      | none => rw [hrest'] at hb; cases hb
      | some y =>
        rw [hrest'] at hb
        have hby : b = y.literal := (Option.some.inj hb).symm
        rw [hat, hby]
        exact hhead y hrest'
    rw [expand_cons, Token.expand, specRuns_append _ _ hboundary, specRuns_replicate _ _ hv,
      ih hrest]
    rfl

theorem compressRLE_expand (ts : List Token) (hc : CanonicalStream ts) :
    compressRLE (expand ts) = serialize ts := by
  rw [compressRLE_eq_spec, specEncode, specRuns_expand ts hc, List.flatMap_map, serialize]
  apply List.flatMap_congr
  intro t ht
  exact specToken_canonical t (hc.1 t ht)

theorem runToken_canonical (run : Nat × Nat) (hpos : 1 ≤ run.2) : (runToken run).Canonical := by
  obtain ⟨c, rest, hc, hlo, _⟩ := decimalNumeral_head run.2 hpos
  refine ⟨decimalNumeral_ne_nil _, decimalNumeral_digits _, ?_, ?_, ?_⟩
  · simp only [runToken, hc, List.head?_cons, ne_eq, Option.some.injEq]
    omega
  · simp only [runToken, decimalValue_numeral]
    exact hpos
  · simp [runToken]

theorem specRunsFrom_units (l : List Nat) : ∀ (cur n : Nat),
    (specRunsFrom cur n l).Chain' (fun a b => a.1 ≠ b.1) ∧
      ∀ y ∈ (specRunsFrom cur n l).head?, y.1 = cur := by
  induction l with
  | nil => intro cur n; simp [specRunsFrom]
  | cons c rest ih =>
    intro cur n
    unfold specRunsFrom
    by_cases hcur : c = cur
    · rw [if_pos hcur]; exact ih cur (n + 1)
    · rw [if_neg hcur]
      refine ⟨List.chain'_cons'.mpr ⟨?_, (ih c 1).1⟩, by simp⟩
      intro y hy
      rw [(ih c 1).2 y hy]
      exact fun h => hcur h.symm

theorem compressRLE_canonical (text : List Nat) :
    CanonicalStream ((specRuns text).map runToken) := by
  constructor
  · intro t ht
    obtain ⟨run, hrun, rfl⟩ := List.mem_map.mp ht
    exact runToken_canonical run (specRuns_pos text run hrun)
  · rw [List.chain'_map]
    cases text with
    | nil => simp [specRuns]
    | cons c rest => exact (specRunsFrom_units rest c 1).1

theorem decimalValue_two_pow_54 : decimalValue (codeUnits "18014398509481984") = 2 ^ 54 := by
  simp [decimalValue, codeUnits, Nat.ofDigits]

/-! ## The claims, continued -/

/-- C12: empty input.  `compressRLE` of the empty text is the empty stream, and
`decompressRLE` of the empty stream returns the empty text and raises nothing. -/
theorem empty_input :
    compressRLE [] = [] ∧ ∀ maxLen : Nat, decompressRLE maxLen [] = .ok [] :=
  ⟨rfl, fun _ => rfl⟩

/-- C15: `compressRLE` distributes over concatenation at a run boundary: when `A` is empty,
or `B` is empty, or the last unit of `A` differs from the first unit of `B`,
`compressRLE (A ++ B) = compressRLE A ++ compressRLE B`. -/
theorem compressRLE_append (A B : List Nat)
    (h : A = [] ∨ B = [] ∨
      ∃ a b, A.getLast? = some a ∧ B.head? = some b ∧ a ≠ b) :
    compressRLE (A ++ B) = compressRLE A ++ compressRLE B := by
  apply compressRLE_append_boundary
  intro a b ha hb
  rcases h with rfl | rfl | ⟨a1, b1, ha1, hb1, hne⟩
  · simp at ha
  · simp at hb
  · rw [ha1] at ha
    rw [hb1] at hb
    cases ha; cases hb
    exact hne

/-- The texts `aab` and `baa` meet at a run boundary; so do the empty text and `aa`, and
`aa` and the empty text. -/
theorem compressRLE_append_witness :
    compressRLE ([97, 97, 98] ++ [97, 97]) = compressRLE [97, 97, 98] ++ compressRLE [97, 97] ∧
      compressRLE ([] ++ [97, 97]) = compressRLE [] ++ compressRLE [97, 97] ∧
      compressRLE ([97, 97] ++ []) = compressRLE [97, 97] ++ compressRLE [] :=
  ⟨compressRLE_append [97, 97, 98] [97, 97]
      (Or.inr (Or.inr ⟨98, 97, by decide, by decide, by decide⟩)),
    compressRLE_append [] [97, 97] (Or.inl rfl),
    compressRLE_append [97, 97] [] (Or.inr (Or.inl rfl))⟩

/-- C11: count invariant of the encoder output.  For every text `T`, `compressRLE T` is a
concatenation of tokens (count digits, optional backslash, literal) in which the first
digit of every count is not `0` and the value of every count is at least 1; and for every
non-empty `T` the first unit of `compressRLE T` is one of `1` to `9`. -/
theorem compressRLE_counts (T : List Nat) :
    (∃ ts : List Token,
        (∀ t ∈ ts, t.WellFormed ∧ t.digits.head? ≠ some 48 ∧ 1 ≤ decimalValue t.digits) ∧
          compressRLE T = serialize ts) ∧
      (T ≠ [] → ∃ c rest, compressRLE T = c :: rest ∧ 49 ≤ c ∧ c ≤ 57) := by
  constructor
  · refine ⟨(specRuns T).map runToken, ?_, ?_⟩
    · intro t ht
      obtain ⟨run, hrun, rfl⟩ := List.mem_map.mp ht
      have hpos := specRuns_pos T run hrun
      obtain ⟨c, rest, hc, hlo, _⟩ := decimalNumeral_head run.2 hpos
      refine ⟨runToken_wellFormed run, ?_, ?_⟩
      · simp only [runToken, hc, List.head?_cons, ne_eq, Option.some.injEq]
        omega
      · simp only [runToken, decimalValue_numeral]
        exact hpos
    · rw [compressRLE_eq_spec, specEncode_eq_serialize]
  · intro hne
    obtain ⟨x, rest, rfl⟩ := List.exists_cons_of_ne_nil hne
    have hruns : specRuns (x :: rest) = specRunsFrom x 1 rest := rfl
    obtain ⟨c, r, hc, hlo, hhi⟩ :=
      decimalNumeral_head (1 + (rest.takeWhile (· == x)).length) (by omega)
    refine ⟨c, ?_, ?_, hlo, hhi⟩
    · exact r ++ (if isDecDigit x = true ∨ x = backslash then [backslash] else []) ++ [x] ++
        specEncode (rest.dropWhile (· == x))
    · rw [compressRLE_eq_spec, specEncode, hruns, specRunsFrom_eq, List.flatMap_cons,
        specToken, hc]
      simp [specEncode]

/-- C17: worst-case expansion.  For every text `T`, `compressRLE T` is at most 3 times as
long as `T`, and at most 2 times as long when `T` holds no digit and no backslash. -/
theorem compressRLE_length_le (T : List Nat) :
    (compressRLE T).length ≤ 3 * T.length ∧
      ((∀ c ∈ T, isDecDigit c = false ∧ c ≠ backslash) →
        (compressRLE T).length ≤ 2 * T.length) := by
  rw [compressRLE_eq_spec, specEncode]
  cases T with
  | nil => simp [specRuns]
  | cons c rest =>
    have hruns : specRuns (c :: rest) = specRunsFrom c 1 rest := rfl
    rw [hruns]
    constructor
    · have := specRunsFrom_length_le rest c 1 (Nat.le_refl 1)
      simp only [List.length_cons]
      omega
    · intro hplain
      have := specRunsFrom_length_le_plain rest c 1 (Nat.le_refl 1) hplain
      simp only [List.length_cons]
      omega

/-- C13: `decompressRLE` terminates on every stream.  The outer loop ends within
`length / 2 + 1` tests of its condition; a pass that does not raise advances the scan
position `i` by at least 2 and keeps `i` plus the number of units still to read equal to
the length of the stream; the inner digit loop advances `i` by 1 for each digit it appends
and never past the end of the stream; and when `decompressRLE` returns, the loop has ended
with `i` equal to the length of the stream and nothing left to read. -/
theorem decompressRLE_terminates (maxLen : Nat) :
    (∀ st : DecodeState,
        decodeLoopFuel maxLen (st.rest.length / 2 + 1) st = some (decodeLoop maxLen st)) ∧
      (∀ st st1 : DecodeState, decodePass maxLen st = .ok st1 →
        st.i + 2 ≤ st1.i ∧ st1.i + st1.rest.length = st.i + st.rest.length) ∧
      (∀ (c : Nat) (rest countStr : List Nat) (i : Nat), isDecDigit c = true →
        digitLoop countStr i (c :: rest) = digitLoop (countStr ++ [c]) (i + 1) rest) ∧
      (∀ (l countStr : List Nat) (i : Nat),
        (digitLoop countStr i l).2.1 + (digitLoop countStr i l).2.2.length = i + l.length ∧
          (digitLoop countStr i l).1.length =
            countStr.length + ((digitLoop countStr i l).2.1 - i) ∧
          i ≤ (digitLoop countStr i l).2.1) ∧
      (∀ s text : List Nat, decompressRLE maxLen s = .ok text →
        ∃ st : DecodeState, decodeLoop maxLen ⟨0, s, []⟩ = .ok st ∧ st.i = s.length ∧
          st.rest = [] ∧ st.decompressedText = text) := by
  refine ⟨fun st => decodeLoopFuel_eq maxLen _ st (Nat.le_refl _), decodePass_advance maxLen,
    digitLoop_step, digitLoop_position, ?_⟩
  intro s text h
  by_cases hnil : s = []
  · subst hnil
    have htext : text = [] := by
      have : decompressRLE maxLen [] = .ok [] := rfl
      rw [this] at h
      exact (Except.ok.inj h).symm
    exact ⟨⟨0, [], []⟩, decodeLoop_nil maxLen 0 [], rfl, rfl, htext.symm⟩
  · unfold decompressRLE at h
    rw [if_neg hnil] at h
    cases hl : decodeLoop maxLen ⟨0, s, []⟩ with
    | error e => simp [hl] at h
    | ok st =>
      simp only [hl, Except.ok.injEq] at h
      obtain ⟨hi, hrest⟩ := decodeLoop_final maxLen s st hl
      exact ⟨st, rfl, hi, hrest, h⟩

/-- C18: `decompressRLE` is not injective on the streams it accepts.  On an engine whose
strings can hold two units, `0a` and the empty stream both decode to the empty text, and
`1a1a` and `2a` both decode to `aa`; `compressRLE` of the decoded text is `2a`, not `1a1a`,
and is the empty stream, not `0a`. -/
theorem decompressRLE_not_injective (maxLen : Nat) (h : 2 ≤ maxLen) :
    decompressRLE maxLen (codeUnits "0a") = .ok [] ∧
      decompressRLE maxLen [] = .ok [] ∧
      codeUnits "0a" ≠ [] ∧
      decompressRLE maxLen (codeUnits "1a1a") = .ok (codeUnits "aa") ∧
      decompressRLE maxLen (codeUnits "2a") = .ok (codeUnits "aa") ∧
      codeUnits "1a1a" ≠ codeUnits "2a" ∧
      compressRLE (codeUnits "aa") ≠ codeUnits "1a1a" ∧
      compressRLE [] ≠ codeUnits "0a" := by
  have h0 := decompressRLE_tokens maxLen [⟨[48], false, 97⟩] (by decide)
  have h1 := decompressRLE_tokens maxLen [⟨[49], false, 97⟩, ⟨[49], false, 97⟩] (by decide)
  have h2 := decompressRLE_tokens maxLen [⟨[50], false, 97⟩] (by decide)
  have e0 : expand [⟨[48], false, 97⟩] = [] := by decide
  have e1 : expand [⟨[49], false, 97⟩, ⟨[49], false, 97⟩] = [97, 97] := by decide
  have e2 : expand [⟨[50], false, 97⟩] = [97, 97] := by decide
  have hfit : ¬ maxLen < ([97, 97] : List Nat).length := by
    simp only [List.length_cons, List.length_nil]; omega
  rw [e0] at h0
  rw [e1, if_neg hfit] at h1
  rw [e2, if_neg hfit] at h2
  have henc : compressRLE (codeUnits "aa") = codeUnits "2a" := by
    simp [compressRLE, replaceRuns, encodeRun, codeUnits, numberToString, decimalDigits,
      parseInt, isNaN, radixPrefix, radixDigit, isWhiteSpace, backslash]
  refine ⟨?_, rfl, by decide, h1, h2, by decide, ?_, by decide⟩
  · simpa using h0
  · rw [henc]; decide

/-- On an engine whose longest string has `2 ^ 29 - 24` units. -/
theorem decompressRLE_not_injective_witness :
    decompressRLE (2 ^ 29 - 24) (codeUnits "1a1a") = .ok (codeUnits "aa") ∧
      decompressRLE (2 ^ 29 - 24) (codeUnits "2a") = .ok (codeUnits "aa") ∧
      compressRLE (codeUnits "aa") ≠ codeUnits "1a1a" :=
  ⟨(decompressRLE_not_injective (2 ^ 29 - 24) (by decide)).2.2.2.1,
    (decompressRLE_not_injective (2 ^ 29 - 24) (by decide)).2.2.2.2.1,
    (decompressRLE_not_injective (2 ^ 29 - 24) (by decide)).2.2.2.2.2.2.1⟩

/-- C14, as stated, fails: on an engine whose longest string has `2 ^ 29 - 24` units the
streams `300000000a` and `300000000b` are both accepted, and their concatenation raises a
`RangeError`; and on every engine, with `n` the length of its longest string, the stream of
`n` times `a` and the stream `1a` are both accepted and their concatenation raises. -/
theorem decompressRLE_concat_overflow :
    ((∃ t1, decompressRLE (2 ^ 29 - 24) (codeUnits "300000000a") = .ok t1) ∧
        (∃ t2, decompressRLE (2 ^ 29 - 24) (codeUnits "300000000b") = .ok t2) ∧
        decompressRLE (2 ^ 29 - 24) (codeUnits "300000000a" ++ codeUnits "300000000b") =
          .error .rangeError) ∧
      ∀ maxLen : Nat, 1 ≤ maxLen →
        (∃ t1, decompressRLE maxLen (decimalNumeral maxLen ++ [97]) = .ok t1) ∧
          (∃ t2, decompressRLE maxLen [49, 97] = .ok t2) ∧
          decompressRLE maxLen ((decimalNumeral maxLen ++ [97]) ++ [49, 97]) =
            .error .rangeError := by
  constructor
  · have hsa : serialize [Token.mk (codeUnits "300000000") false 97] =
        codeUnits "300000000a" := by decide
    have hsb : serialize [Token.mk (codeUnits "300000000") false 98] =
        codeUnits "300000000b" := by decide
    have hla : (expand [Token.mk (codeUnits "300000000") false 97]).length = 300000000 := by
      simp only [expand, List.flatMap_cons, List.flatMap_nil, List.append_nil, Token.expand,
        List.length_replicate, decimalValue_300000000]
    have hlb : (expand [Token.mk (codeUnits "300000000") false 98]).length = 300000000 := by
      simp only [expand, List.flatMap_cons, List.flatMap_nil, List.append_nil, Token.expand,
        List.length_replicate, decimalValue_300000000]
    have ha := decompressRLE_tokens (2 ^ 29 - 24)
      [Token.mk (codeUnits "300000000") false 97] (by decide)
    have hb := decompressRLE_tokens (2 ^ 29 - 24)
      [Token.mk (codeUnits "300000000") false 98] (by decide)
    rw [hla, if_neg (by norm_num), hsa] at ha
    rw [hlb, if_neg (by norm_num), hsb] at hb
    refine ⟨⟨_, ha⟩, ⟨_, hb⟩, ?_⟩
    rw [decompressRLE_concat _ _ _ _ _ ha hb, hla, hlb, if_neg (by norm_num)]
  · intro maxLen hpos
    have hsa : serialize [runToken (97, maxLen)] = decimalNumeral maxLen ++ [97] := by
      simp [serialize, runToken_serialize, specToken, isDecDigit, backslash]
    have hla : (expand [runToken (97, maxLen)]).length = maxLen := by
      simp [expand, runToken_expand]
    have ha := decompressRLE_tokens maxLen [runToken (97, maxLen)]
      (by
        intro t ht
        rw [List.mem_singleton.mp ht]; exact runToken_wellFormed _)
    have hb := decompressRLE_tokens maxLen [⟨[49], false, 97⟩] (by decide)
    have hlb : expand [⟨[49], false, 97⟩] = [97] := by decide
    have hsb : serialize [⟨[49], false, 97⟩] = [49, 97] := by decide
    rw [hla, if_neg (by omega), hsa] at ha
    rw [hlb, if_neg (by simp only [List.length_cons, List.length_nil]; omega), hsb] at hb
    refine ⟨⟨_, ha⟩, ⟨_, hb⟩, ?_⟩
    rw [decompressRLE_concat _ _ _ _ _ ha hb, hla, if_neg]
    simp

/-- C14, amended: for all streams `s1` and `s2` that `decompressRLE` accepts, with texts
`t1` and `t2`, `decompressRLE (s1 ++ s2)` returns `t1 ++ t2` when `t1 ++ t2` is no longer
than the engine longest string, and raises a `RangeError` otherwise; the count scan of the
first token of `s2` never absorbs, and is never absorbed by, the end of `s1`. -/
theorem decompressRLE_distributes (maxLen : Nat) (s1 s2 t1 t2 : List Nat)
    (h1 : decompressRLE maxLen s1 = .ok t1) (h2 : decompressRLE maxLen s2 = .ok t2) :
    decompressRLE maxLen (s1 ++ s2) =
      if t1.length + t2.length ≤ maxLen then .ok (t1 ++ t2) else .error .rangeError :=
  decompressRLE_concat maxLen s1 s2 t1 t2 h1 h2

/-- The streams `1\5` and `3a` decode to `5` and `aaa`, and `1\53a` decodes to `5aaa`. -/
theorem decompressRLE_distributes_witness :
    decompressRLE (2 ^ 29 - 24) ([49, 92, 53] ++ [51, 97]) = .ok ([53] ++ [97, 97, 97]) := by
  have h1 : decompressRLE (2 ^ 29 - 24) [49, 92, 53] = .ok [53] := by
    have h := decompressRLE_tokens (2 ^ 29 - 24) [⟨[49], true, 53⟩] (by decide)
    have e : expand [⟨[49], true, 53⟩] = [53] := by decide
    rw [e, if_neg (by decide)] at h
    exact h
  have h2 : decompressRLE (2 ^ 29 - 24) [51, 97] = .ok [97, 97, 97] := by
    have h := decompressRLE_tokens (2 ^ 29 - 24) [⟨[51], false, 97⟩] (by decide)
    have e : expand [⟨[51], false, 97⟩] = [97, 97, 97] := by decide
    rw [e, if_neg (by decide)] at h
    exact h
  have h := decompressRLE_distributes (2 ^ 29 - 24) [49, 92, 53] [51, 97] [53] [97, 97, 97]
    h1 h2
  rw [if_pos (by decide)] at h
  exact h

/-- C16, as stated, fails: the stream `18014398509481984b` is one canonical token (count
`2 ^ 54`, no leading zero, a literal that needs no backslash), and on every engine
`decompressRLE` raises a `RangeError` on it instead of returning a text. -/
theorem decompressRLE_raises_on_canonical :
    CanonicalStream [Token.mk (codeUnits "18014398509481984") false 98] ∧
      serialize [Token.mk (codeUnits "18014398509481984") false 98] =
        codeUnits "18014398509481984b" ∧
      ∀ maxLen : Nat, maxLen < 2 ^ 53 →
        decompressRLE maxLen (codeUnits "18014398509481984b") = .error .rangeError := by
  have hcan : (Token.mk (codeUnits "18014398509481984") false 98).Canonical := by decide
  have hser : serialize [Token.mk (codeUnits "18014398509481984") false 98] =
      codeUnits "18014398509481984b" := by decide
  refine ⟨⟨?_, by simp⟩, hser, ?_⟩
  · intro t ht
    rw [List.mem_singleton.mp ht]; exact hcan
  · intro maxLen hlt
    rw [← hser]
    refine decompressRLE_token_rangeError maxLen _ hcan.wellFormed ?_
    rw [decimalValue_two_pow_54]
    exact Nat.lt_trans hlt (by norm_num)

/-! ## The encoder on an engine with a bounded backtrack stack -/

theorem replaceRunsOn_cons (maxRun : Nat) (callback : List Nat → List Nat) (c : Nat)
    (rest : List Nat) :
    replaceRunsOn maxRun callback (c :: rest) =
      if maxRun < (c :: rest.takeWhile (· == c)).length then .error .rangeError
      else
        match replaceRunsOn maxRun callback (rest.dropWhile (· == c)) with
        | .error e => .error e
        | .ok replaced => .ok (callback (c :: rest.takeWhile (· == c)) ++ replaced) := by
  rw [replaceRunsOn]

theorem specRuns_cons (c : Nat) (rest : List Nat) :
    specRuns (c :: rest) =
      (c, 1 + (rest.takeWhile (· == c)).length) :: specRuns (rest.dropWhile (· == c)) := by
  show specRunsFrom c 1 rest = _
  rw [specRunsFrom_eq]

theorem replaceRunsOn_eq (maxRun : Nat) (callback : List Nat → List Nat) (n : Nat) :
    ∀ text : List Nat, text.length = n →
    replaceRunsOn maxRun callback text =
      if ∀ run ∈ specRuns text, run.2 ≤ maxRun then .ok (replaceRuns callback text)
      else .error .rangeError := by
  induction n using Nat.strong_induction_on with
  | _ n ih =>
    intro text hn
    cases text with
    | nil => simp [replaceRunsOn, replaceRuns, specRuns]
    | cons c rest =>
      have hlt : (rest.dropWhile (· == c)).length < n := by
        rw [← hn]
        exact Nat.lt_succ_of_le (List.dropWhile_sublist _).length_le
      rw [replaceRunsOn_cons, ih _ hlt _ rfl, replaceRuns_cons, specRuns_cons]
      simp only [List.length_cons, List.mem_cons, forall_eq_or_imp]
      by_cases h1 : maxRun < (rest.takeWhile (· == c)).length + 1
      · have h2 : ¬ (1 + (rest.takeWhile (· == c)).length ≤ maxRun ∧
            ∀ run ∈ specRuns (rest.dropWhile (· == c)), run.2 ≤ maxRun) := by
          intro h; omega
        rw [if_pos h1, if_neg h2]
      · have h2 : 1 + (rest.takeWhile (· == c)).length ≤ maxRun := by omega
        rw [if_neg h1]
        by_cases h3 : ∀ run ∈ specRuns (rest.dropWhile (· == c)), run.2 ≤ maxRun
        · rw [if_pos h3, if_pos ⟨h2, h3⟩]
        · rw [if_neg h3, if_neg (fun h => h3 h.2)]

theorem compressRLEOn_eq (maxRun : Nat) (text : List Nat) :
    compressRLEOn maxRun text =
      if ∀ run ∈ specRuns text, run.2 ≤ maxRun then .ok (compressRLE text)
      else .error .rangeError := by
  unfold compressRLEOn compressRLE
  by_cases h : text = []
  · simp [h, specRuns]
  · rw [if_neg h, if_neg h]
    exact replaceRunsOn_eq maxRun encodeRun _ text rfl

theorem compressRLEOn_replicate (maxRun c n : Nat) (hn : 1 ≤ n) :
    compressRLEOn maxRun (List.replicate n c) =
      if n ≤ maxRun then .ok (compressRLE (List.replicate n c)) else .error .rangeError := by
  rw [compressRLEOn_eq, specRuns_replicate c n hn]
  simp

theorem compressRLE_replicate (c n : Nat) (hn : 1 ≤ n) :
    compressRLE (List.replicate n c) =
      decimalNumeral n ++ (if (48 ≤ c ∧ c ≤ 57) ∨ c = 92 then [92] else []) ++ [c] := by
  rw [compressRLE_eq_spec, specEncode, specRuns_replicate c n hn]
  simp [specToken, isDecDigit, backslash]

theorem compressRLEOn_long_run (maxRun c n : Nat) (hn : maxRun < n) :
    compressRLEOn maxRun (List.replicate n c) = .error .rangeError := by
  rw [compressRLEOn_replicate maxRun c n (by omega), if_neg (by omega)]

/-! ## The claims about the encoder on an engine -/

/-- C1, as stated, fails: the text of 5592383 units `a` fits in a string of `2 ^ 29 - 24`
units, and on every engine whose regular expression matches runs shorter than that only,
`compressRLE` raises a `RangeError` on it instead of returning a stream to decode; and
whatever the longest run an engine matches, the text of one more `a` raises. -/
theorem round_trip_long_run :
    (List.replicate 5592383 97).length ≤ 2 ^ 29 - 24 ∧
      (∀ maxRun : Nat, maxRun < 5592383 →
        compressRLEOn maxRun (List.replicate 5592383 97) = .error .rangeError) ∧
      ∀ maxRun : Nat,
        compressRLEOn maxRun (List.replicate (maxRun + 1) 97) = .error .rangeError := by
  refine ⟨?_, ?_, ?_⟩
  · rw [List.length_replicate]; norm_num
  · intro maxRun h
    exact compressRLEOn_long_run maxRun 97 5592383 h
  · intro maxRun
    exact compressRLEOn_long_run maxRun 97 (maxRun + 1) (Nat.lt_succ_self _)

/-- C1, amended: round trip.  For every text `T` no longer than the engine longest string
(digits, backslashes and the empty text included): when every maximal run of `T` has at
most as many units as the regular expression of the engine matches, `compressRLE T` returns
a stream and `decompressRLE` of that stream raises nothing and returns `T`; when some run
is longer, `compressRLE T` raises a `RangeError`. -/
theorem round_trip (maxRun maxLen : Nat) (T : List Nat) (hT : T.length ≤ maxLen) :
    ((∀ run ∈ specRuns T, run.2 ≤ maxRun) →
        ∃ s, compressRLEOn maxRun T = .ok s ∧ decompressRLE maxLen s = .ok T) ∧
      ((∃ run ∈ specRuns T, maxRun < run.2) →
        compressRLEOn maxRun T = .error .rangeError) := by
  constructor
  · intro h
    exact ⟨compressRLE T, by rw [compressRLEOn_eq, if_pos h],
      decompressRLE_compressRLE maxLen T hT⟩
  · rintro ⟨run, hrun, hlong⟩
    rw [compressRLEOn_eq, if_neg]
    intro h
    have := h run hrun
    omega

/-- The round trip at the text `aa\55 `, on an engine whose regular expression matches
runs of 5592382 units and whose longest string has `2 ^ 29 - 24` units; on an engine that
matches runs of one unit only, the same text raises. -/
theorem round_trip_witness :
    (∃ s, compressRLEOn 5592382 [97, 97, 92, 53, 53, 32] = .ok s ∧
        decompressRLE (2 ^ 29 - 24) s = .ok [97, 97, 92, 53, 53, 32]) ∧
      compressRLEOn 1 [97, 97, 92, 53, 53, 32] = .error .rangeError :=
  ⟨(round_trip 5592382 (2 ^ 29 - 24) [97, 97, 92, 53, 53, 32] (by decide)).1 (by decide),
    (round_trip 1 (2 ^ 29 - 24) [97, 97, 92, 53, 53, 32] (by decide)).2
      ⟨(97, 2), by decide, by decide⟩⟩

/-- C2, as stated, fails: the text `b` followed by 5592383 units `a` has the two maximal
runs `b` and the `a`s, and on every engine whose regular expression matches runs shorter than
5592383 units only, `compressRLE` raises a `RangeError` on it instead of returning the
tokens of the two runs. -/
theorem compressRLE_raises_on_long_run :
    specRuns ([98] ++ List.replicate 5592383 97) = [(98, 1), (97, 5592383)] ∧
      ∀ maxRun : Nat, maxRun < 5592383 →
        compressRLEOn maxRun ([98] ++ List.replicate 5592383 97) = .error .rangeError := by
  have hruns : specRuns ([98] ++ List.replicate 5592383 97) = [(98, 1), (97, 5592383)] := by
    rw [specRuns_append, specRuns_replicate 97 5592383 (by norm_num)]
    · rfl
    · intro a b ha hb
      have ha98 : a = 98 := by
        have : some 98 = some a := ha
        exact (Option.some.inj this).symm
      have hb97 : b = 97 :=
        List.eq_of_mem_replicate (List.mem_of_mem_head? hb)
      omega
  refine ⟨hruns, ?_⟩
  intro maxRun h
  rw [compressRLEOn_eq, hruns, if_neg]
  intro hall
  have := hall (97, 5592383) (by simp)
  simp only at this
  omega

/-- C2, amended: `compressRLE` is the reference run-length encoder wherever it returns.  For
every text, when every maximal run has at most as many units as the regular expression of
the engine matches, `compressRLE` returns the tokens of the maximal runs, in order, each the
decimal numeral of the run length, a backslash if and only if the unit is a digit or the
backslash, and the unit once; when some run is longer it raises a `RangeError`.  On an
engine that matches runs of 3 units, `compressRLE "aaab" = "3a1b"`. -/
theorem compressRLE_eq_reference :
    (∀ (maxRun : Nat) (T : List Nat),
        compressRLEOn maxRun T =
          if ∀ run ∈ specRuns T, run.2 ≤ maxRun then .ok (specEncode T)
          else .error .rangeError) ∧
      ∀ maxRun : Nat, 3 ≤ maxRun →
        compressRLEOn maxRun (codeUnits "aaab") = .ok (codeUnits "3a1b") := by
  constructor
  · intro maxRun T
    rw [compressRLEOn_eq, compressRLE_eq_spec]
  · intro maxRun h
    have hruns : specRuns (codeUnits "aaab") = [(97, 3), (98, 1)] := by decide
    have henc : compressRLE (codeUnits "aaab") = codeUnits "3a1b" := by
      simp [compressRLE, replaceRuns, encodeRun, codeUnits, numberToString, decimalDigits,
        parseInt, isNaN, radixPrefix, radixDigit, isWhiteSpace, backslash]
    rw [compressRLEOn_eq, henc, hruns, if_pos]
    intro run hrun
    rcases List.mem_cons.mp hrun with h1 | h1
    · rw [h1]; exact h
    · rw [List.mem_singleton.mp h1]
      show 1 ≤ maxRun
      omega

/-- C8, as stated, fails: on every engine whose regular expression matches runs shorter than
5592383 units only, `compressRLE` of 5592383 units `5` raises a `RangeError` instead of
returning `5592383\5`. -/
theorem compressRLE_single_run_raises :
    decimalNumeral 5592383 ++ [92] ++ [53] = codeUnits "5592383" ++ [92, 53] ∧
      ∀ maxRun : Nat, maxRun < 5592383 →
        compressRLEOn maxRun (List.replicate 5592383 53) = .error .rangeError := by
  refine ⟨?_, fun maxRun h => compressRLEOn_long_run maxRun 53 5592383 h⟩
  simp [decimalNumeral, codeUnits]

/-- C8, amended: escape if and only if digit or marker, on a single run.  For every unit
`c` and every `n ≥ 1`, `compressRLE` of `c` repeated `n` times returns, when `n` is at most
the longest run the regular expression of the engine matches, the decimal numeral of `n`,
then one backslash exactly when `c` is one of `0` to `9` or the backslash, then `c` once;
when `n` is larger it raises a `RangeError`. -/
theorem compressRLE_single_run (maxRun c n : Nat) (hn : 1 ≤ n) :
    compressRLEOn maxRun (List.replicate n c) =
      if n ≤ maxRun then
        .ok (decimalNumeral n ++ (if (48 ≤ c ∧ c ≤ 57) ∨ c = 92 then [92] else []) ++ [c])
      else .error .rangeError := by
  rw [compressRLEOn_replicate maxRun c n hn, compressRLE_replicate c n hn]

/-- On an engine whose regular expression matches runs of 5592382 units, the runs `5`, `\`
and 1000 times `a` are encoded as `1\5`, `1\\` and `1000a`, and a space, a plus sign and
the Arabic-Indic digit three are not escaped; on an engine that matches runs of 999 units,
1000 times `a` raises. -/
theorem compressRLE_single_run_witness :
    compressRLEOn 5592382 [53] = .ok [49, 92, 53] ∧
      compressRLEOn 5592382 [92] = .ok [49, 92, 92] ∧
      compressRLEOn 5592382 (List.replicate 1000 97) = .ok (codeUnits "1000a") ∧
      compressRLEOn 5592382 [32] = .ok [49, 32] ∧
      compressRLEOn 5592382 [43] = .ok [49, 43] ∧
      compressRLEOn 5592382 [0x0663] = .ok [49, 0x0663] ∧
      compressRLEOn 999 (List.replicate 1000 97) = .error .rangeError := by
  have h1 := compressRLE_single_run 5592382 53 1 (by decide)
  have h2 := compressRLE_single_run 5592382 92 1 (by decide)
  have h3 := compressRLE_single_run 5592382 97 1000 (by decide)
  have h4 := compressRLE_single_run 5592382 32 1 (by decide)
  have h5 := compressRLE_single_run 5592382 43 1 (by decide)
  have h6 := compressRLE_single_run 5592382 0x0663 1 (by decide)
  have h7 := compressRLE_single_run 999 97 1000 (by decide)
  rw [if_pos (by decide)] at h1 h2 h3 h4 h5 h6
  rw [if_neg (by decide)] at h7
  refine ⟨?_, ?_, ?_, ?_, ?_, ?_, h7⟩
  · simpa [decimalNumeral] using h1
  · simpa [decimalNumeral] using h2
  · rw [h3]; simp [decimalNumeral, codeUnits]
  · simpa [decimalNumeral] using h4
  · simpa [decimalNumeral] using h5
  · simpa [decimalNumeral] using h6

theorem runToken_value (run : Nat × Nat) : decimalValue (runToken run).digits = run.2 := by
  simp [runToken, decimalValue_numeral]

/-- C16, amended: `compressRLE` inverts `decompressRLE` on canonical streams, within the
limits of the engine.  For every canonical stream (counts without leading zero and at least
1, backslash exactly before a digit or a backslash, consecutive literals different), with
`t` the text its tokens stand for: `decompressRLE` of the stream returns `t` when `t` is no
longer than the engine longest string and raises a `RangeError` when it is longer;
`compressRLE t` returns the stream when every count is at most the longest run the regular
expression of the engine matches and raises a `RangeError` when some count is larger.
Every stream `compressRLE` returns is such a canonical stream with counts within that
limit, standing for the text it was given. -/
theorem compressRLE_inverts_canonical (maxRun maxLen : Nat) :
    (∀ ts : List Token, CanonicalStream ts →
        decompressRLE maxLen (serialize ts) =
            (if (expand ts).length ≤ maxLen then .ok (expand ts) else .error .rangeError) ∧
          compressRLEOn maxRun (expand ts) =
            (if ∀ t ∈ ts, decimalValue t.digits ≤ maxRun then .ok (serialize ts)
              else .error .rangeError)) ∧
      (∀ T s : List Nat, compressRLEOn maxRun T = .ok s →
        ∃ ts : List Token, CanonicalStream ts ∧ (∀ t ∈ ts, decimalValue t.digits ≤ maxRun) ∧
          s = serialize ts ∧ expand ts = T) := by
  constructor
  · intro ts hc
    constructor
    · rw [decompressRLE_tokens maxLen ts (fun t ht => (hc.1 t ht).wellFormed)]
      by_cases h : (expand ts).length ≤ maxLen
      · rw [if_pos h, if_neg (by omega)]
      · rw [if_neg h, if_pos (by omega)]
    · rw [compressRLEOn_eq, specRuns_expand ts hc, compressRLE_expand ts hc]
      by_cases h : ∀ t ∈ ts, decimalValue t.digits ≤ maxRun
      · rw [if_pos h, if_pos]
        intro run hrun
        obtain ⟨t, ht, rfl⟩ := List.mem_map.mp hrun
        exact h t ht
      · rw [if_neg h, if_neg]
        intro hall
        apply h
        intro t ht
        exact hall (t.literal, decimalValue t.digits) (List.mem_map.mpr ⟨t, ht, rfl⟩)
  · intro T s hs
    rw [compressRLEOn_eq] at hs
    by_cases h : ∀ run ∈ specRuns T, run.2 ≤ maxRun
    · rw [if_pos h] at hs
      have hs1 : compressRLE T = s := Except.ok.inj hs
      refine ⟨(specRuns T).map runToken, compressRLE_canonical T, ?_, ?_, expand_specRuns T⟩
      · intro t ht
        obtain ⟨run, hrun, rfl⟩ := List.mem_map.mp ht
        rw [runToken_value]
        exact h run hrun
      · rw [← hs1, compressRLE_eq_spec, specEncode_eq_serialize]
    · rw [if_neg h] at hs
      cases hs

/-- The canonical stream `3a1\5` decodes to `aaa5`, and `aaa5` is encoded as `3a1\5`, on
an engine whose regular expression matches runs of 5592382 units and whose longest string
has `2 ^ 29 - 24` units; an engine that matches runs of 2 units raises on `aaa5`, and one
whose longest string has 3 units raises on `3a1\5`. -/
theorem compressRLE_inverts_canonical_witness :
    compressRLEOn 5592382 [97, 97, 97, 53] = .ok [51, 97, 49, 92, 53] ∧
      decompressRLE (2 ^ 29 - 24) [51, 97, 49, 92, 53] = .ok [97, 97, 97, 53] ∧
      compressRLEOn 2 [97, 97, 97, 53] = .error .rangeError ∧
      decompressRLE 3 [51, 97, 49, 92, 53] = .error .rangeError := by
  have hc : CanonicalStream [⟨[51], false, 97⟩, ⟨[49], true, 53⟩] :=
    ⟨by decide, by simp⟩
  have h := (compressRLE_inverts_canonical 5592382 (2 ^ 29 - 24)).1 _ hc
  have h' := (compressRLE_inverts_canonical 2 3).1 _ hc
  obtain ⟨hd, he⟩ := h
  obtain ⟨hd', he'⟩ := h'
  rw [if_pos (by decide)] at hd he
  rw [if_neg (by decide)] at hd' he'
  exact ⟨he, hd, he', hd'⟩

end RLE
